import Mathlib

/-
Verification of the prompt-catalog loader and validator
(`prompt_catalog_mcp/catalog.py` and `prompt_catalog_mcp/validator.py`)
via a shallow embedding in Lean 4.

Modelling conventions:
  * Parsed YAML/JSON documents are modelled by the inductive type `Yaml`.
    The external parsing libraries (`yaml.safe_load`, `json.loads`) and the
    external `jsonschema` validator are treated as oracles: functions passed
    in as parameters, or pre-computed parse outcomes attached to each file.
  * Python exceptions escaping a function are modelled with `Except PyError`.
  * Python `dict`s keyed by strings are association lists
    (`List (String × α)`); assignment is `dictInsert` (overwrite-in-place,
    append when fresh — insertion-order semantics of CPython dicts).
  * The filesystem reads a component performs are modelled by functions from
    directory names to the (name, content) lists their `glob` calls return.
-/

namespace PromptCatalog

/-- A parsed YAML/JSON value (mapping keys are strings, as everywhere in this
catalog's documents). -/
inductive Yaml where
  | null : Yaml
  | bool (b : Bool) : Yaml
  | int (n : Int) : Yaml
  | str (s : String) : Yaml
  | list (xs : List Yaml) : Yaml
  | map (kvs : List (String × Yaml)) : Yaml
  deriving Repr

/-- A Python exception escaping a modelled function. -/
inductive PyError where
  | typeError (msg : String) : PyError
  | keyError (key : String) : PyError
  | valueError (msg : String) : PyError
  | attributeError (msg : String) : PyError
  | yamlError (msg : String) : PyError
  /-- Marker for inputs outside the typed fragment this model covers
  (e.g. a record whose `id` is not a string); no claim exercises these. -/
  | modelUnsupported (msg : String) : PyError
  deriving Repr, DecidableEq

mutual

/-- Structural (and decidable) equality on `Yaml` values. -/
def yamlBEq : Yaml → Yaml → Bool
  | .null, .null => true
  | .bool a, .bool b => a == b
  | .int a, .int b => a == b
  | .str a, .str b => a == b
  | .list a, .list b => yamlListBEq a b
  | .map a, .map b => yamlMapBEq a b
  | _, _ => false

def yamlListBEq : List Yaml → List Yaml → Bool
  | [], [] => true
  | a :: as, b :: bs => yamlBEq a b && yamlListBEq as bs
  | _, _ => false

def yamlMapBEq : List (String × Yaml) → List (String × Yaml) → Bool
  | [], [] => true
  | (ka, va) :: as, (kb, vb) :: bs => ka == kb && yamlBEq va vb && yamlMapBEq as bs
  | _, _ => false

end

instance : BEq Yaml := ⟨yamlBEq⟩

mutual

theorem yamlBEq_iff : ∀ a b : Yaml, yamlBEq a b = true ↔ a = b
  | .null, .null => by simp [yamlBEq]
  | .bool a, .bool b => by simp [yamlBEq]
  | .int a, .int b => by simp [yamlBEq]
  | .str a, .str b => by simp [yamlBEq]
  | .list a, .list b => by
      simp only [yamlBEq, Yaml.list.injEq]
      exact yamlListBEq_iff a b
  | .map a, .map b => by
      simp only [yamlBEq, Yaml.map.injEq]
      exact yamlMapBEq_iff a b
  | .null, .bool _ | .null, .int _ | .null, .str _ | .null, .list _ | .null, .map _
  | .bool _, .null | .bool _, .int _ | .bool _, .str _ | .bool _, .list _ | .bool _, .map _
  | .int _, .null | .int _, .bool _ | .int _, .str _ | .int _, .list _ | .int _, .map _
  | .str _, .null | .str _, .bool _ | .str _, .int _ | .str _, .list _ | .str _, .map _
  | .list _, .null | .list _, .bool _ | .list _, .int _ | .list _, .str _ | .list _, .map _
  | .map _, .null | .map _, .bool _ | .map _, .int _ | .map _, .str _ | .map _, .list _ => by
      simp [yamlBEq]

theorem yamlListBEq_iff : ∀ a b : List Yaml, yamlListBEq a b = true ↔ a = b
  | [], [] => by simp [yamlListBEq]
  | [], _ :: _ => by simp [yamlListBEq]
  | _ :: _, [] => by simp [yamlListBEq]
  | a :: as, b :: bs => by
      simp only [yamlListBEq, Bool.and_eq_true, List.cons.injEq]
      exact and_congr (yamlBEq_iff a b) (yamlListBEq_iff as bs)

theorem yamlMapBEq_iff : ∀ a b : List (String × Yaml), yamlMapBEq a b = true ↔ a = b
  | [], [] => by simp [yamlMapBEq]
  | [], _ :: _ => by simp [yamlMapBEq]
  | _ :: _, [] => by simp [yamlMapBEq]
  | (ka, va) :: as, (kb, vb) :: bs => by
      simp only [yamlMapBEq, Bool.and_eq_true, List.cons.injEq, beq_iff_eq, Prod.mk.injEq]
      constructor
      · rintro ⟨⟨h1, h2⟩, h3⟩
        exact ⟨⟨h1, (yamlBEq_iff va vb).mp h2⟩, (yamlMapBEq_iff as bs).mp h3⟩
      · rintro ⟨⟨h1, h2⟩, h3⟩
        exact ⟨⟨h1, (yamlBEq_iff va vb).mpr h2⟩, (yamlMapBEq_iff as bs).mpr h3⟩

end

instance : DecidableEq Yaml := fun a b =>
  decidable_of_iff (yamlBEq a b = true) (yamlBEq_iff a b)

instance : LawfulBEq Yaml where
  eq_of_beq h := (yamlBEq_iff _ _).mp h
  rfl := (yamlBEq_iff _ _).mpr rfl

instance {ε α : Type} [DecidableEq ε] [DecidableEq α] :
    DecidableEq (Except ε α) := fun a b =>
  match a, b with
  | .ok x, .ok y =>
      decidable_of_iff (x = y)
        ⟨fun h => by rw [h], fun h => by injection h⟩
  | .error x, .error y =>
      decidable_of_iff (x = y)
        ⟨fun h => by rw [h], fun h => by injection h⟩
  | .ok _, .error _ => isFalse (fun h => by cases h)
  | .error _, .ok _ => isFalse (fun h => by cases h)

/-- Python `==` on modelled values: structural, except that booleans compare
equal to the corresponding integers (`True == 1`, `False == 0`). -/
def pyEq : Yaml → Yaml → Bool
  | .bool b, .int n => (if b then (1 : Int) else 0) == n
  | .int n, .bool b => (if b then (1 : Int) else 0) == n
  | a, b => yamlBEq a b

/-- Python truthiness of a value (`None`, `False`, `0`, `""`, `[]`, `{}` are
falsy). -/
def yamlTruthy : Yaml → Bool
  | .null => false
  | .bool b => b
  | .int n => n != 0
  | .str s => s ≠ ""
  | .list xs => xs ≠ []
  | .map kvs => kvs ≠ []

/-- `d.get(k, default)` on a Python dict with string keys. -/
def yget (kvs : List (String × Yaml)) (k : String) (dflt : Yaml) : Yaml :=
  match kvs.find? (fun kv => kv.1 == k) with
  | some kv => kv.2
  | none => dflt

/-- `d.get(k)` (default `None` is kept as an `Option` so that a missing key is
distinguishable). -/
def yget? (kvs : List (String × Yaml)) (k : String) : Option Yaml :=
  (kvs.find? (fun kv => kv.1 == k)).map (fun kv => kv.2)

/-- `d[k]` on a Python dict: raises `KeyError` when the key is missing. -/
def ygetItem (kvs : List (String × Yaml)) (k : String) : Except PyError Yaml :=
  match kvs.find? (fun kv => kv.1 == k) with
  | some kv => .ok kv.2
  | none => .error (.keyError k)

mutual

/-- Python `repr` of a modelled value (used by `str` on containers). -/
def pyRepr : Yaml → String
  | .null => "None"
  | .bool b => if b then "True" else "False"
  | .int n => toString n
  | .str s => "'" ++ s ++ "'"
  | .list xs => "[" ++ String.intercalate ", " (pyReprList xs) ++ "]"
  | .map kvs => "\x7b" ++ String.intercalate ", " (pyReprMap kvs) ++ "\x7d"

def pyReprList : List Yaml → List String
  | [] => []
  | x :: xs => pyRepr x :: pyReprList xs

def pyReprMap : List (String × Yaml) → List String
  | [] => []
  | (k, v) :: kvs => ("'" ++ k ++ "': " ++ pyRepr v) :: pyReprMap kvs

end

/-- A regex `\w` character (ASCII fragment: the claims and the catalog's
identifiers only use `[A-Za-z0-9_]`). -/
def wordChar (c : Char) : Bool := c.isAlphanum || c == '_'

/-- `n` is a well-formed placeholder name: non-empty and all word
characters. -/
def WordStr (n : String) : Prop := n.data ≠ [] ∧ ∀ c ∈ n.data, wordChar c = true

instance (n : String) : Decidable (WordStr n) := by unfold WordStr; infer_instance

/-- The placeholder character sequence for name `n`, i.e. the characters of
the double-brace wrapped identifier. -/
def ph (n : String) : List Char := '\x7b' :: '\x7b' :: (n.data ++ ['\x7d', '\x7d'])

/-- Number of positions at which `p` occurs (as a contiguous sub-sequence)
in `l`. -/
def countOcc (p : List Char) : List Char → Nat
  | [] => 0
  | c :: rest => (if p.isPrefixOf (c :: rest) then 1 else 0) + countOcc p rest

/-- Greedy maximal run of word characters at the front of a character list,
together with the remainder. -/
def takeWordRun : List Char → List Char × List Char
  | [] => ([], [])
  | c :: rest =>
    if wordChar c then ((c :: (takeWordRun rest).1), (takeWordRun rest).2)
    else ([], c :: rest)

theorem takeWordRun_snd_le : ∀ l : List Char, (takeWordRun l).2.length ≤ l.length
  | [] => Nat.le_refl _
  | c :: rest => by
    simp only [takeWordRun]
    by_cases h : wordChar c = true
    · simp only [h, if_true]
      exact Nat.le_trans (takeWordRun_snd_le rest) (Nat.le_succ _)
    · simp [h]

/-- The successive captures of `re.findall(r"\{\{(\w+)\}\}", ·)`: scan left to
right; at each position try to match `{{`, a non-empty greedy word run, `}}`;
on success emit the captured name and continue past the match, otherwise
advance one character. -/
def findPlaceholders (l : List Char) : List String :=
  match l with
  | '\x7b' :: '\x7b' :: rest =>
    match hw : takeWordRun rest with
    | ([], _) => findPlaceholders ('\x7b' :: rest)
    | (c :: w, '\x7d' :: '\x7d' :: rest') =>
        String.mk (c :: w) :: findPlaceholders rest'
    | (_ :: _, _) => findPlaceholders ('\x7b' :: rest)
  | _ :: rest => findPlaceholders rest
  | [] => []
termination_by l.length
decreasing_by
  · simp only [List.length_cons]; omega
  · have h1 : (takeWordRun rest).2.length ≤ rest.length := takeWordRun_snd_le rest
    rw [hw] at h1
    simp only [List.length_cons] at h1 ⊢
    omega
  · simp only [List.length_cons]; omega
  · simp only [List.length_cons]; omega

/-- Order-preserving de-duplication, keeping the first occurrence of each
element (the semantics of Python's `list(dict.fromkeys(xs))`, and of
collecting a Python `set`). -/
def dedupFirst {α : Type} [DecidableEq α] : List α → List α
  | [] => []
  | x :: xs => x :: dedupFirst (xs.filter (fun y => y ≠ x))
termination_by l => l.length
decreasing_by
  have := List.length_filter_le (fun y => decide (y ≠ x)) xs
  simp only [List.length_cons]
  omega

/-- Replace every (left-to-right, non-overlapping) occurrence of `pat` in `l`
by `rep` — the semantics of Python's `str.replace` for a non-empty pattern. -/
def replaceChars (pat rep : List Char) : List Char → List Char
  | [] => []
  | c :: rest =>
    if h : pat ≠ [] ∧ pat.isPrefixOf (c :: rest) then
      rep ++ replaceChars pat rep ((c :: rest).drop pat.length)
    else
      c :: replaceChars pat rep rest
termination_by l => l.length
decreasing_by
  · rcases pat with _ | ⟨p, ps⟩
    · exact absurd rfl h.1
    · simp only [List.length_cons, List.length_drop]
      omega
  · simp only [List.length_cons]; omega

/-- Python `needle in hay` for strings (substring containment). -/
def hasInfix (hay pat : List Char) : Bool :=
  pat.isPrefixOf hay ||
    match hay with
    | [] => false
    | _ :: t => hasInfix t pat

/-- Python `str.strip()`: drop leading and trailing whitespace. -/
def pyStrip (s : String) : String :=
  String.mk ((s.data.dropWhile Char.isWhitespace).reverse.dropWhile
    Char.isWhitespace).reverse

/-- Offset of the first occurrence of `pat` in `l`, if any. -/
def firstMatch (pat : List Char) : List Char → Option Nat
  | [] => if pat = [] then some 0 else none
  | c :: rest =>
    if pat.isPrefixOf (c :: rest) then some 0
    else (firstMatch pat rest).map (· + 1)

/-- Index of the first occurrence of `pat` in `l` at position ≥ `start`
(Python `str.index(pat, start)` returns it or raises `ValueError`). -/
def findFrom (pat l : List Char) (start : Nat) : Option Nat :=
  (firstMatch pat (l.drop start)).map (· + start)

/-- Stable insertion of a keyed element into a name-sorted list. -/
def insertByName {β : Type} (x : String × β) : List (String × β) → List (String × β)
  | [] => [x]
  | y :: ys => if x.1 < y.1 then x :: y :: ys else y :: insertByName x ys

/-- Sort a `(name, payload)` list by name — the effect of Python's
`sorted(dir.glob(...))` on the files of one directory. -/
def sortByName {β : Type} : List (String × β) → List (String × β)
  | [] => []
  | x :: xs => insertByName x (sortByName xs)

/-- Sort a list of strings ascending (Python `sorted` on strings). -/
def sortStrings (l : List String) : List String :=
  (sortByName (l.map (fun s => (s, ())))).map (fun p => p.1)

/-- Python dict assignment `d[k] = v`: overwrite in place if the key exists,
else append (CPython insertion-order semantics). -/
def dictInsert {β : Type} (d : List (String × β)) (k : String) (v : β) :
    List (String × β) :=
  if d.any (fun kv => kv.1 == k) then
    d.map (fun kv => if kv.1 == k then (k, v) else kv)
  else d ++ [(k, v)]

/-- Lookup in a modelled dict. -/
def dictGet {β : Type} (d : List (String × β)) (k : String) : Option β :=
  (d.find? (fun kv => kv.1 == k)).map (fun kv => kv.2)

-- ── Catalog constants (catalog.py) ──────────────────────────────────

def PROMPT_DIRS : List String :=
  ["planning", "architecture", "development", "testing",
   "security", "deployment", "operations", "domains"]

def INSTRUCTION_SCOPES : List String := ["phases", "guardrails", "platforms"]

def SKILL_ORDER : List String := ["beginner", "intermediate", "advanced", "expert"]

-- ── Typed-extraction helpers for record construction ────────────────

/-- Require a string value. The `modelUnsupported` branch marks documents
outside the typed fragment of this embedding (Python would store the raw
value); no claim depends on such documents. -/
def asStr : Yaml → Except PyError String
  | .str s => .ok s
  | _ => .error (.modelUnsupported "expected a string value")

/-- Require a list value, keeping the elements raw. -/
def asList : Yaml → Except PyError (List Yaml)
  | .list xs => .ok xs
  | _ => .error (.modelUnsupported "expected a list value")

/-- Require a list of strings. -/
def asStrList (y : Yaml) : Except PyError (List String) := do
  (← asList y).mapM asStr

/-- Require a mapping whose values are lists of strings (the shape of a
well-formed `chain_position` block). -/
def asChainPos : Yaml → Except PyError (List (String × List String))
  | .map kvs => kvs.mapM (fun kv => do pure (kv.1, ← asStrList kv.2))
  | _ => .error (.modelUnsupported "expected a mapping value")

-- ── PromptEntry ─────────────────────────────────────────────────────

/-- A single prompt loaded from a YAML file (dataclass `PromptEntry`). -/
structure PromptEntry where
  id : String
  version : String
  title : String
  description : String
  category : String
  subcategory : String
  skill_level : String
  platforms : List String
  tags : List String
  prompt_text : String
  «variables» : List Yaml
  expected_output : String
  quality_criteria : List String
  anti_patterns : List String
  adversarial_tests : List Yaml
  related_prompts : List String
  chain_position : List (String × List String)
  file_path : String
  raw : Yaml
  deriving Repr, DecidableEq

/-- `PromptEntry.from_yaml`: the parse outcome of `yaml.safe_load` on the
file is supplied; required fields (`id`, `title`) are subscripted (KeyError
when missing), the rest take `.get` defaults. -/
def PromptEntry.from_yaml (path : String) (parsed : Except String Yaml) :
    Except PyError PromptEntry := do
  let data ← match parsed with
    | .ok d => pure d
    | .error e => .error (.yamlError e)
  let kvs ← match data with
    | .map kvs => pure kvs
    | _ => .error (.typeError "value is not subscriptable by string keys")
  let id ← asStr (← ygetItem kvs "id")
  let version ← asStr (yget kvs "version" (.str "1.0.0"))
  let title ← asStr (← ygetItem kvs "title")
  let description ← asStr (yget kvs "description" (.str ""))
  let category ← asStr (yget kvs "category" (.str ""))
  let subcategory ← asStr (yget kvs "subcategory" (.str ""))
  let skill_level ← asStr (yget kvs "skill_level" (.str "intermediate"))
  let platforms ← asStrList (yget kvs "platforms" (.list []))
  let tags ← asStrList (yget kvs "tags" (.list []))
  let prompt_text ← asStr (yget kvs "prompt" (.str ""))
  let «variables» ← asList (yget kvs "variables" (.list []))
  let expected_output ← asStr (yget kvs "expected_output" (.str ""))
  let quality_criteria ← asStrList (yget kvs "quality_criteria" (.list []))
  let anti_patterns ← asStrList (yget kvs "anti_patterns" (.list []))
  let adversarial_tests ← asList (yget kvs "adversarial_tests" (.list []))
  let related_prompts ← asStrList (yget kvs "related_prompts" (.list []))
  let chain_position ← asChainPos (yget kvs "chain_position" (.map []))
  pure { id, version, title, description, category, subcategory, skill_level,
         platforms, tags, prompt_text, «variables», expected_output,
         quality_criteria, anti_patterns, adversarial_tests, related_prompts,
         chain_position, file_path := path, raw := data }

/-- `PromptEntry.extract_variable_names`: ordered unique `{{variable}}` names
from the prompt text (`list(dict.fromkeys(re.findall(...)))`). -/
def PromptEntry.extract_variable_names (p : PromptEntry) : List String :=
  dedupFirst (findPlaceholders p.prompt_text.data)

/-- The body of `PromptEntry.render` on a given template text: fold
`str.replace` of each supplied placeholder over the argument mapping in
insertion order (`if arguments:` makes the empty mapping a no-op, which the
fold over `[]` is as well). -/
def renderText (text : String) (arguments : List (String × String)) : String :=
  arguments.foldl
    (fun t kv =>
      String.mk (replaceChars ("\x7b\x7b" ++ kv.1 ++ "\x7d\x7d").data
        kv.2.data t.data))
    text

/-- `PromptEntry.render`: substitute `{{variables}}` with supplied values. -/
def PromptEntry.render (p : PromptEntry) (arguments : List (String × String)) :
    String :=
  renderText p.prompt_text arguments

/-- `chain_position.get("next", [])`. -/
def PromptEntry.chainNext (p : PromptEntry) : List String :=
  match dictGet p.chain_position "next" with
  | some l => l
  | none => []

-- ── InstructionEntry ────────────────────────────────────────────────

/-- A single instruction file (dataclass `InstructionEntry`). The `name` and
`description` attributes hold whatever YAML values the frontmatter supplied. -/
structure InstructionEntry where
  stem : String
  scope : String
  file_path : String
  name : Yaml
  description : Yaml
  deriving Repr, DecidableEq

/-- `InstructionEntry.from_path`: `safeLoad` is the external YAML parser, the
file's text is supplied, `pathStem`/`pathStr` stand for `path.stem`/`path`.
A file not starting with `---` keeps the defaults; a `---` opener without a
second `---` raises `ValueError` (uncaught `text.index`). -/
def InstructionEntry.from_path (safeLoad : String → Except String Yaml)
    (scope : String) (pathStr : String) (pathStem : String) (text : String) :
    Except PyError InstructionEntry := do
  let nd ← (do
    if ("---".data.isPrefixOf text.data : Bool) then
      match findFrom "---".data text.data 3 with
      | none => Except.error (PyError.valueError "substring not found")
      | some e =>
        match safeLoad (String.mk ((text.data.drop 3).take (e - 3))) with
        | .error msg => Except.error (PyError.yamlError msg)
        | .ok fm =>
          if yamlTruthy fm then
            match fm with
            | .map kvs =>
                pure (yget kvs "name" (.str ""), yget kvs "description" (.str ""))
            | _ => Except.error (PyError.attributeError "object has no attribute get")
          else
            pure (Yaml.str "", Yaml.str "")
    else
      pure (Yaml.str "", Yaml.str ""))
  pure { stem := pathStem, scope, file_path := pathStr,
         name := if yamlTruthy nd.1 then nd.1 else .str pathStem,
         description := nd.2 }

-- ── StarterKit ──────────────────────────────────────────────────────

/-- A pre-configured bundle of prompts and instructions (dataclass
`StarterKit`). -/
structure StarterKit where
  id : String
  name : String
  description : String
  target_audience : String
  prompts : List String
  instructions : List String
  tags : List String
  raw : Yaml
  deriving Repr, DecidableEq

/-- `StarterKit.from_yaml` on a parse outcome. -/
def StarterKit.from_yaml (parsed : Except String Yaml) :
    Except PyError StarterKit := do
  let data ← match parsed with
    | .ok d => pure d
    | .error e => .error (.yamlError e)
  let kvs ← match data with
    | .map kvs => pure kvs
    | _ => .error (.typeError "value is not subscriptable by string keys")
  let id ← asStr (← ygetItem kvs "id")
  let name ← asStr (← ygetItem kvs "name")
  let description ← asStr (yget kvs "description" (.str ""))
  let target_audience ← asStr (yget kvs "target_audience" (.str ""))
  let prompts ← asStrList (yget kvs "prompts" (.list []))
  let instructions ← asStrList (yget kvs "instructions" (.list []))
  let tags ← asStrList (yget kvs "tags" (.list []))
  pure { id, name, description, target_audience, prompts, instructions, tags,
         raw := data }

-- ── Catalog ─────────────────────────────────────────────────────────

/-- Loaded, indexed prompt catalog (dataclass `Catalog`). -/
structure Catalog where
  root : String
  prompts : List (String × PromptEntry)
  instructions : List (String × InstructionEntry)
  starter_kits : List (String × StarterKit)
  deriving Repr, DecidableEq

/-- `Path.stem` for the file names the loader meets: the name with its final
`.suffix` removed (a leading dot does not start a suffix). -/
def fileStem (name : String) : String :=
  let cs := name.data
  match cs.reverse.findIdx? (fun c => c == '.') with
  | none => name
  | some i =>
    let dotPos := cs.length - 1 - i
    if dotPos == 0 then name else String.mk (cs.take dotPos)

/-- `Catalog.load`: a full scan of the category directories for prompt
files, the scope directories for instruction files, and the flat starter-kit
directory. `promptFiles`/`instrFiles`/`kitFiles` model the glob results
(file name with parse outcome or raw text); globs are sorted, `_`-prefixed
prompt files are skipped, and any entry whose constructor raises is silently
dropped (`except Exception: pass`). -/
def Catalog.load (root : String)
    (safeLoad : String → Except String Yaml)
    (promptFiles : String → List (String × Except String Yaml))
    (instrFiles : String → List (String × String))
    (kitFiles : List (String × Except String Yaml)) : Catalog :=
  let prompts := PROMPT_DIRS.foldl (fun acc dir =>
    (sortByName (promptFiles dir)).foldl (fun acc f =>
      if f.1.startsWith "_" then acc
      else
        match PromptEntry.from_yaml
            (root ++ "/prompts/" ++ dir ++ "/" ++ f.1) f.2 with
        | .ok e => dictInsert acc e.id e
        | .error _ => acc) acc) []
  let instructions := INSTRUCTION_SCOPES.foldl (fun acc scope =>
    (sortByName (instrFiles scope)).foldl (fun acc f =>
      match InstructionEntry.from_path safeLoad scope
          (root ++ "/instructions/" ++ scope ++ "/" ++ f.1) (fileStem f.1) f.2 with
      | .ok e => dictInsert acc e.stem e
      | .error _ => acc) acc) []
  let starter_kits := (sortByName kitFiles).foldl (fun acc f =>
    match StarterKit.from_yaml f.2 with
    | .ok k => dictInsert acc k.id k
    | .error _ => acc) []
  { root, prompts, instructions, starter_kits }

-- ── Filtering ───────────────────────────────────────────────────────

/-- `list.index` (raises `ValueError` when the element is absent). -/
def pyListIndex (l : List String) (x : String) : Except PyError Nat :=
  match l.findIdx? (fun y => y == x) with
  | some i => .ok i
  | none => .error (.valueError ("'" ++ x ++ "' is not in list"))

/-- The loop body of `Catalog.filter_prompts` for one record: each criterion
is applied only when truthy (`None` and `""` are skipped), with the same
short-circuit order as the Python `continue`s; `SKILL_ORDER.index` may
raise. -/
def promptMatches (category subcategory skill_level platform tag query : Option String)
    (p : PromptEntry) : Except PyError Bool := do
  match category with
  | some c => if c ≠ "" ∧ p.category ≠ c then return false
  | none => pure ()
  match subcategory with
  | some c => if c ≠ "" ∧ p.subcategory ≠ c then return false
  | none => pure ()
  match skill_level with
  | some s =>
    if s ≠ "" then
      let maxIdx ← pyListIndex SKILL_ORDER s
      let curIdx ← pyListIndex SKILL_ORDER p.skill_level
      if curIdx > maxIdx then return false
  | none => pure ()
  match platform with
  | some pl =>
      if pl ≠ "" ∧ pl ∉ p.platforms ∧ "all" ∉ p.platforms then return false
  | none => pure ()
  match tag with
  | some t => if t ≠ "" ∧ t ∉ p.tags then return false
  | none => pure ()
  match query with
  | some qs =>
    if qs ≠ "" then
      let q := qs.toLower
      let searchable := (p.title ++ " " ++ p.description ++ " "
        ++ String.intercalate " " p.tags).toLower
      if ¬ (hasInfix searchable.data q.data : Bool) then return false
  | none => pure ()
  return true

/-- `Catalog.filter_prompts`: conjunctive filtering over the catalog's
records in insertion order. -/
def Catalog.filter_prompts (cat : Catalog)
    (category subcategory skill_level platform tag query : Option String) :
    Except PyError (List PromptEntry) :=
  (cat.prompts.map (fun kv => kv.2)).foldlM
    (fun acc p => do
      if (← promptMatches category subcategory skill_level platform tag query p) then
        pure (acc ++ [p])
      else pure acc)
    []

-- ── Chain traversal ─────────────────────────────────────────────────

theorem length_filter_mono {α : Type} (p q : α → Bool)
    (h : ∀ a, p a = true → q a = true) :
    ∀ l : List α, (l.filter p).length ≤ (l.filter q).length := by
  intro l
  induction l with
  | nil => simp
  | cons c ls ih =>
    by_cases hp : p c = true
    · have hq := h c hp
      simp [List.filter_cons, hp, hq]
      omega
    · by_cases hq : q c = true
      · simp [List.filter_cons, hp, hq]
        omega
      · simp [List.filter_cons, hp, hq]
        exact ih

theorem length_filter_visited_lt {k : String} {visited : List String} :
    ∀ keys : List String, k ∈ keys → k ∉ visited →
      (keys.filter (fun x => x ∉ k :: visited)).length
        < (keys.filter (fun x => x ∉ visited)).length := by
  intro keys
  induction keys with
  | nil => intro h; exact absurd h (List.not_mem_nil k)
  | cons c ks ih =>
    intro hk hnv
    have hmono : ∀ x : String,
        (decide (x ∉ k :: visited)) = true → (decide (x ∉ visited)) = true := by
      intro x hx
      simp only [decide_eq_true_eq, List.mem_cons, not_or] at hx ⊢
      exact hx.2
    rw [List.filter_cons, List.filter_cons]
    by_cases hc : c = k
    · subst hc
      have hle := length_filter_mono (fun x => decide (x ∉ c :: visited))
        (fun x => decide (x ∉ visited)) hmono ks
      rw [if_neg (by simp : ¬ ((decide (c ∉ c :: visited)) = true)),
        if_pos (by simpa using hnv : (decide (c ∉ visited)) = true)]
      simp only [List.length_cons]
      omega
    · have hk' : k ∈ ks := by
        rcases List.mem_cons.mp hk with h | h
        · exact absurd h.symm hc
        · exact h
      have hlt := ih hk' hnv
      by_cases h1 : (decide (c ∉ k :: visited)) = true
      · rw [if_pos h1, if_pos (hmono c h1)]
        simp only [List.length_cons]
        omega
      · rw [Bool.not_eq_true] at h1
        rw [if_neg (by rw [h1]; exact Bool.false_ne_true)]
        by_cases h2 : (decide (c ∉ visited)) = true
        · rw [if_pos h2]
          simp only [List.length_cons]
          omega
        · rw [Bool.not_eq_true] at h2
          rw [if_neg (by rw [h2]; exact Bool.false_ne_true)]
          exact hlt

theorem dictGet_mem_keys {β : Type} {d : List (String × β)} {k : String} {v : β}
    (h : dictGet d k = some v) : k ∈ d.map (fun kv => kv.1) := by
  unfold dictGet at h
  rcases ho : d.find? (fun kv => kv.1 == k) with _ | kv
  · rw [ho] at h; simp at h
  · have hp := List.find?_some ho
    have hm := List.mem_of_find?_eq_some ho
    simp only [beq_iff_eq] at hp
    subst hp
    exact List.mem_map.mpr ⟨kv, hm, rfl⟩

/-- The loop of `Catalog.get_chain`: `visited` is the visited set, the
`Option` is the current identifier (`None` after an empty `next` list; the
Python loop also exits on the falsy empty string). Terminates because each
iteration that appends a record removes its (catalog-resident, unvisited)
identifier from the unvisited key set. -/
def Catalog.getChainAux (cat : Catalog) (visited : List String) :
    Option String → List PromptEntry
  | none => []
  | some cid =>
    if h : cid = "" ∨ cid ∈ visited then []
    else
      match hp : dictGet cat.prompts cid with
      | none => []
      | some p =>
          p :: Catalog.getChainAux cat (cid :: visited) p.chainNext.head?
termination_by cur =>
  ((cat.prompts.map (fun kv => kv.1)).filter (fun x => x ∉ visited)).length
decreasing_by
  push_neg at h
  exact length_filter_visited_lt _ (dictGet_mem_keys hp) h.2

/-- `Catalog.get_chain`: walk a prompt chain forward from the given prompt
identifier. -/
def Catalog.get_chain (cat : Catalog) (start_id : String) : List PromptEntry :=
  Catalog.getChainAux cat [] (some start_id)

-- ── Kit resolution ──────────────────────────────────────────────────

/-- `Catalog.resolve_kit`: raises `ValueError` for an unknown kit id,
otherwise resolves each referenced identifier, silently dropping the ones
with no match. -/
def Catalog.resolve_kit (cat : Catalog) (kit_id : String) :
    Except PyError (List PromptEntry × List InstructionEntry) :=
  match dictGet cat.starter_kits kit_id with
  | none => .error (.valueError ("Starter kit not found: " ++ kit_id))
  | some kit =>
    .ok (kit.prompts.filterMap (fun pid => dictGet cat.prompts pid),
         kit.instructions.filterMap (fun iid => dictGet cat.instructions iid))

-- ── Validator (validator.py) ────────────────────────────────────────

/-- A single validation issue (dataclass `Issue`). -/
structure Issue where
  file : String
  message : String
  severity : String
  deriving Repr, DecidableEq

/-- Aggregated validation results (dataclass `ValidationResult`). -/
structure ValidationResult where
  issues : List Issue
  files_checked : Nat
  files_passed : Nat
  deriving Repr, DecidableEq

/-- `ValidationResult.ok`: no error-severity issue. -/
def ValidationResult.ok (r : ValidationResult) : Bool :=
  ¬ r.issues.any (fun i => i.severity == "error")

/-- `ValidationResult.error_count`. -/
def ValidationResult.error_count (r : ValidationResult) : Nat :=
  (r.issues.filter (fun i => i.severity == "error")).length

/-- `ValidationResult.warning_count`. -/
def ValidationResult.warning_count (r : ValidationResult) : Nat :=
  (r.issues.filter (fun i => i.severity == "warning")).length

/-- One violation reported by the external `jsonschema` `Draft7Validator`:
its `absolute_path` elements (already rendered by `str`) and its message. -/
structure SchemaViol where
  path : List String
  message : String
  deriving Repr, DecidableEq

/-- Python iteration `for v in x` over a modelled value (dicts iterate their
keys, strings their characters). -/
def pyIter : Yaml → Except PyError (List Yaml)
  | .list xs => .ok xs
  | .map kvs => .ok (kvs.map (fun kv => Yaml.str kv.1))
  | .str s => .ok (s.data.map (fun c => Yaml.str (String.mk [c])))
  | _ => .error (.typeError "object is not iterable")

/-- `v["name"]` for an arbitrary value: only mappings accept a string
subscript (missing key raises `KeyError`, any other shape `TypeError`). -/
def pySubscriptName : Yaml → Except PyError Yaml
  | .map kvs => ygetItem kvs "name"
  | _ => .error (.typeError "value does not accept string subscripts")

/-- Python `x in container` for the shapes the validator meets. -/
def pyIn (x : Yaml) (container : Yaml) : Except PyError Bool :=
  match container with
  | .list xs => .ok (xs.any (fun y => pyEq y x))
  | .map kvs =>
    match x with
    | .str s => .ok (kvs.any (fun kv => kv.1 == s))
    | _ => .ok false
  | .str hay =>
    match x with
    | .str s => .ok (hasInfix hay.data s.data)
    | _ => .error (.typeError "in <string> requires string as left operand")
  | _ => .error (.typeError "argument is not a container")

/-- `", ".join(sorted(xs))` on the members of a set: succeeds exactly when
all members are strings (a non-string member makes `sorted`/`join` raise
`TypeError`). -/
def pySortedJoin (xs : List Yaml) : Except PyError String := do
  let strs ← xs.mapM (fun y => match y with
    | .str s => Except.ok s
    | _ => Except.error (PyError.typeError "expected str instance"))
  pure (String.intercalate ", " (sortStrings strs))

/-- `_check_prompt_extras`: the semantic checks run on every parsed mapping.
Returns the issues it appends to the shared result (all warnings).
`used_vars` and `defined_vars` are Python sets, modelled as de-duplicated
lists; building `defined_vars` subscripts each variables entry with
`v["name"]` and so can raise. -/
def _check_prompt_extras (data : List (String × Yaml)) (rel_path : String) :
    Except PyError (List Issue) := do
  let promptTextVal := yget data "prompt" (.str "")
  let ptext ← match promptTextVal with
    | .str s => pure s
    | _ => Except.error (PyError.typeError "expected string or bytes-like object")
  let varsVal := yget data "variables" (.list [])
  let vars ← pyIter varsVal
  let used : List Yaml := (dedupFirst (findPlaceholders ptext.data)).map Yaml.str
  let definedRaw ← vars.mapM pySubscriptName
  let defined := dedupFirst definedRaw
  let undefined := used.filter (fun u => ¬ defined.contains u)
  let issues1 ← (if undefined ≠ [] then do
      let joined ← pySortedJoin undefined
      pure [Issue.mk rel_path
        ("Variables used in prompt but not defined: " ++ joined) "warning"]
    else pure ([] : List Issue))
  let unused := defined.filter (fun d => ¬ used.contains d)
  let issues2 ← (if unused ≠ [] then do
      let joined ← pySortedJoin unused
      pure [Issue.mk rel_path
        ("Variables defined but not used in prompt: " ++ joined) "warning"]
    else pure ([] : List Issue))
  let promptId := yget data "id" (.str "")
  let related := yget data "related_prompts" (.list [])
  let selfRef ← pyIn promptId related
  let issues3 := if selfRef then
      [Issue.mk rel_path "Prompt references itself in related_prompts" "warning"]
    else []
  pure (issues1 ++ issues2 ++ issues3)

/-- The loop body of `validate_prompts` for one file of one category
directory. -/
def validatePromptFile (iterErrors : Yaml → List SchemaViol) (dir : String)
    (result : ValidationResult) (f : String × Except String Yaml) :
    Except PyError ValidationResult := do
  let result := { result with files_checked := result.files_checked + 1 }
  let rel_path := "prompts/" ++ dir ++ "/" ++ f.1
  match f.2 with
  | .error e =>
      pure { result with issues :=
        result.issues ++ [⟨rel_path, "YAML parse error: " ++ e, "error"⟩] }
  | .ok data =>
    match data with
    | .map kvs => do
      let viols := iterErrors data
      let result :=
        if viols ≠ [] then
          { result with issues := result.issues ++ viols.map (fun v =>
              ⟨rel_path,
               (let j := String.intercalate "." v.path;
                if j = "" then "(root)" else j) ++ ": " ++ v.message,
               "error"⟩) }
        else { result with files_passed := result.files_passed + 1 }
      let extra ← _check_prompt_extras kvs rel_path
      pure { result with issues := result.issues ++ extra }
    | _ =>
      pure { result with issues := result.issues
        ++ [⟨rel_path, "File does not contain a YAML mapping", "error"⟩] }

/-- `validate_prompts`: `schema` is the loaded schema document (`none` when
the file is missing; a falsy document is also treated as not found by
`if not schema`), `iterErrors` is the external `Draft7Validator`, and
`promptFiles` the per-directory glob results with their `yaml.safe_load`
outcomes. The whole call raises whenever `_check_prompt_extras` does. -/
def validate_prompts (schema : Option Yaml) (iterErrors : Yaml → List SchemaViol)
    (promptFiles : String → List (String × Except String Yaml)) :
    Except PyError ValidationResult := do
  if (match schema with | none => false | some s => yamlTruthy s) = false then
    return { issues := [⟨"schema/prompt.schema.json", "Schema file not found", "error"⟩],
             files_checked := 0, files_passed := 0 }
  PROMPT_DIRS.foldlM
    (fun result dir =>
      (sortByName (promptFiles dir)).foldlM (validatePromptFile iterErrors dir)
        result)
    { issues := [], files_checked := 0, files_passed := 0 }

/-- The per-file checks of `validate_instructions`: the issues the file
contributes, and whether control reached the final passed-check (the
`continue` paths do not). -/
def instrFileIssues (safeLoad : String → Except String Yaml)
    (rel_path : String) (text : String) : List Issue × Bool :=
  if ¬ ("---".data.isPrefixOf text.data : Bool) then
    ([⟨rel_path, "Missing YAML frontmatter (must start with ---)", "error"⟩], false)
  else
    match findFrom "---".data text.data 3 with
    | none => ([⟨rel_path, "Invalid frontmatter: substring not found", "error"⟩], false)
    | some e =>
      match safeLoad (String.mk ((text.data.drop 3).take (e - 3))) with
      | .error msg => ([⟨rel_path, "Invalid frontmatter: " ++ msg, "error"⟩], false)
      | .ok fm =>
        -- `if not fm or not isinstance(fm, dict)`: a falsy value or any
        -- non-dict takes the error-and-continue branch.
        match fm with
        | .map kvs =>
          if kvs = [] then
            ([⟨rel_path, "Frontmatter is empty or not a mapping", "error"⟩], false)
          else
            let i1 := if (yget? kvs "name").isNone then
                [Issue.mk rel_path "Frontmatter missing 'name' field" "error"]
              else []
            let i2 := if (yget? kvs "description").isNone then
                [Issue.mk rel_path "Frontmatter missing 'description' field" "warning"]
              else []
            let body := pyStrip (String.mk (text.data.drop (e + 3)))
            let i3 := if body.length < 50 then
                [Issue.mk rel_path "Instruction body is too short (< 50 chars)" "warning"]
              else []
            (i1 ++ i2 ++ i3, true)
        | .null | .bool _ | .int _ | .str _ | .list _ =>
          ([⟨rel_path, "Frontmatter is empty or not a mapping", "error"⟩], false)

/-- `validate_instructions`: `instrFiles` models the per-scope glob results
(file name, raw text). A file passes when it reached the end of the loop
body with no error-severity issue recorded under its path. -/
def validate_instructions (safeLoad : String → Except String Yaml)
    (instrFiles : String → List (String × String)) : ValidationResult :=
  INSTRUCTION_SCOPES.foldl
    (fun result scope =>
      (sortByName (instrFiles scope)).foldl
        (fun result f =>
          let rel_path := "instructions/" ++ scope ++ "/" ++ f.1
          let result := { result with files_checked := result.files_checked + 1 }
          let own := instrFileIssues safeLoad rel_path f.2
          let result := { result with issues := result.issues ++ own.1 }
          if own.2 ∧ ¬ result.issues.any
              (fun i => i.file == rel_path && i.severity == "error") then
            { result with files_passed := result.files_passed + 1 }
          else result)
        result)
    { issues := [], files_checked := 0, files_passed := 0 }

-- ── Lemmas: placeholder structure ───────────────────────────────────

/-- All characters of a list are word characters. -/
def WordList (a : List Char) : Prop := ∀ c ∈ a, wordChar c = true

theorem wordChar_ne_lbrace {c : Char} (h : wordChar c = true) : ¬ c = '\x7b' := by
  intro he; subst he; simp [wordChar, Char.isAlphanum, Char.isUpper, Char.isLower,
    Char.isDigit] at h

theorem wordChar_ne_rbrace {c : Char} (h : wordChar c = true) : ¬ c = '\x7d' := by
  intro he; subst he; simp [wordChar, Char.isAlphanum, Char.isUpper, Char.isLower,
    Char.isDigit] at h

theorem ph_eq_append (n : String) (m : List Char) :
    ph n ++ m = '\x7b' :: '\x7b' :: (n.data ++ '\x7d' :: '\x7d' :: m) := by
  simp [ph]

theorem ph_string_data (k : String) :
    ("\x7b\x7b" ++ k ++ "\x7d\x7d").data = ph k := rfl

/-- Two word runs closed by `}}` and lying at the same position agree. -/
theorem word_rr_prefix_eq :
    ∀ (a b m : List Char), WordList a → WordList b →
      (m = [] ∨ ∀ c r, m = c :: r → wordChar c = false) →
      (a ++ ['\x7d', '\x7d']) <+: (b ++ m) → a = b ∧ ['\x7d', '\x7d'] <+: m := by
  intro a
  induction a with
  | nil =>
    intro b m _ hb hm hp
    rcases b with _ | ⟨d, b'⟩
    · exact ⟨rfl, by simpa using hp⟩
    · exfalso
      rcases hp with ⟨t, ht⟩
      simp only [List.nil_append, List.cons_append] at ht
      have : '\x7d' = d := by
        have := congrArg (fun l => l.head?) ht
        simpa using this
      exact wordChar_ne_rbrace (hb d (by simp)) this.symm
  | cons c a' ih =>
    intro b m hca hb hm hp
    rcases b with _ | ⟨d, b'⟩
    · exfalso
      rcases hp with ⟨t, ht⟩
      simp only [List.cons_append, List.nil_append] at ht
      rcases hm with hm | hm
      · subst hm; exact (List.cons_ne_nil _ _) ht
      · rcases m with _ | ⟨e, r⟩
        · exact (List.cons_ne_nil _ _) ht
        · have hce : c = e := by
            have := congrArg (fun l => l.head?) ht
            simpa using this
          have hfalse := hm e r rfl
          have hcw : wordChar e = true := hce ▸ hca c (by simp)
          rw [hfalse] at hcw
          exact Bool.false_ne_true hcw
    · rcases hp with ⟨t, ht⟩
      simp only [List.cons_append] at ht
      have hcd : c = d := (List.cons.injEq _ _ _ _).mp ht |>.1
      have htl : a' ++ ['\x7d', '\x7d'] ++ t = b' ++ m :=
        (List.cons.injEq _ _ _ _).mp ht |>.2
      have hrec := ih b' m (fun x hx => hca x (by simp [hx]))
        (fun x hx => hb x (by simp [hx])) hm ⟨t, by simpa using htl⟩
      exact ⟨by rw [hcd, hrec.1], hrec.2⟩

theorem wordList_data_of_wordStr {n : String} (h : WordStr n) : WordList n.data :=
  fun c hc => h.2 c hc

/-- `ph n` is a prefix of `ph k ++ m` exactly when the names agree. -/
theorem ph_prefix_ph_append_iff {n k : String} (hn : WordStr n) (hk : WordStr k)
    (m : List Char) : ph n <+: ph k ++ m ↔ n = k := by
  constructor
  · intro hp
    rw [ph_eq_append] at hp
    have hp' : (n.data ++ ['\x7d', '\x7d']) <+: (k.data ++ ('\x7d' :: '\x7d' :: m)) := by
      rcases hp with ⟨t, ht⟩
      simp only [ph, List.cons_append, List.cons.injEq, true_and] at ht
      refine ⟨t, ?_⟩
      have := ht
      simpa using this
    have := word_rr_prefix_eq n.data k.data ('\x7d' :: '\x7d' :: m)
      (wordList_data_of_wordStr hn) (wordList_data_of_wordStr hk)
      (Or.inr (fun c r hcr => by
        have : c = '\x7d' := by
          have := congrArg (fun l => l.head?) hcr
          simpa using this.symm
        subst this
        simp [wordChar, Char.isAlphanum, Char.isUpper, Char.isLower, Char.isDigit]))
      hp'
    exact String.ext this.1
  · intro h; subst h; exact ⟨m, rfl⟩

theorem ph_ne_nil (n : String) : ph n ≠ [] := by simp [ph]

/-- A placeholder never starts at a non-`{` character. -/
theorem ph_not_prefix_cons {n : String} {c : Char} {l : List Char}
    (hc : ¬ c = '\x7b') : (ph n).isPrefixOf (c :: l) = false := by
  simp only [ph, List.isPrefixOf, Bool.and_eq_false_iff]
  left
  simpa using fun h => hc h.symm

/-- A placeholder never starts at `{` followed by a word character. -/
theorem ph_not_prefix_lb_word {n k : String} (hk : WordStr k) (r : List Char) :
    (ph n).isPrefixOf ('\x7b' :: (k.data ++ r)) = false := by
  rcases h : k.data with _ | ⟨c, cs⟩
  · exact absurd h hk.1
  · simp only [ph, List.isPrefixOf, List.cons_append]
    have : ('\x7b' == c) = false := by
      have := wordChar_ne_lbrace (hk.2 c (by rw [h]; simp))
      simpa using fun he => this he.symm
    simp [this]

-- ── Lemmas: countOcc ────────────────────────────────────────────────

theorem countOcc_append_right_le (q v m : List Char) :
    countOcc q m ≤ countOcc q (v ++ m) := by
  induction v with
  | nil => simp
  | cons c vs ih =>
    simp only [List.cons_append, countOcc, List.append_eq]
    omega

theorem countOcc_word_append {n : String} {a : List Char} (ha : WordList a)
    (m : List Char) : countOcc (ph n) (a ++ m) = countOcc (ph n) m := by
  induction a with
  | nil => simp
  | cons c cs ih =>
    have hpf := @ph_not_prefix_cons n c (cs ++ m)
      (wordChar_ne_lbrace (ha c (by simp)))
    simp only [List.cons_append, countOcc, List.append_eq, hpf]
    rw [ih (fun x hx => ha x (by simp [hx]))]
    simp

theorem countOcc_rr (n : String) (m : List Char) :
    countOcc (ph n) ('\x7d' :: '\x7d' :: m) = countOcc (ph n) m := by
  simp only [countOcc]
  rw [@ph_not_prefix_cons _ '\x7d' _ (by decide),
    @ph_not_prefix_cons _ '\x7d' _ (by decide)]
  simp

/-- Occurrence count across a leading placeholder span. -/
theorem countOcc_ph_span {n k : String} (hn : WordStr n) (hk : WordStr k)
    (m : List Char) :
    countOcc (ph n) (ph k ++ m) = (if n = k then 1 else 0) + countOcc (ph n) m := by
  rw [ph_eq_append]
  simp only [countOcc]
  have h0 : ((ph n).isPrefixOf ('\x7b' :: '\x7b' :: (k.data ++ '\x7d' :: '\x7d' :: m)))
      = (if n = k then true else false) := by
    by_cases h : n = k
    · simp only [h, if_true]
      rw [List.isPrefixOf_iff_prefix]
      have := (@ph_prefix_ph_append_iff k k (by rwa [h] at hn) hk m).mpr rfl
      rwa [ph_eq_append] at this
    · simp only [h, if_false]
      rw [← Bool.not_eq_true, List.isPrefixOf_iff_prefix]
      intro hp
      exact h ((ph_prefix_ph_append_iff hn hk m).mp (by rwa [ph_eq_append]))
  rw [h0, ph_not_prefix_lb_word hk, countOcc_word_append (wordList_data_of_wordStr hk),
    countOcc_rr]
  by_cases h : n = k <;> simp [h]

-- ── Lemmas: replaceChars ────────────────────────────────────────────

theorem replace_cons_match {k : String} (v : List Char) {c : Char} {l : List Char}
    (h : (ph k).isPrefixOf (c :: l) = true) :
    replaceChars (ph k) v (c :: l) =
      v ++ replaceChars (ph k) v ((c :: l).drop (ph k).length) := by
  rw [replaceChars]
  rw [dif_pos ⟨ph_ne_nil k, h⟩]

theorem replace_cons_nomatch {k : String} (v : List Char) {c : Char} {l : List Char}
    (h : (ph k).isPrefixOf (c :: l) = false) :
    replaceChars (ph k) v (c :: l) = c :: replaceChars (ph k) v l := by
  rw [replaceChars]
  rw [dif_neg (by simp [h])]

theorem replace_word_walk {k : String} (v : List Char) {a : List Char}
    (ha : WordList a) (m : List Char) :
    replaceChars (ph k) v (a ++ '\x7d' :: '\x7d' :: m) =
      a ++ '\x7d' :: '\x7d' :: replaceChars (ph k) v m := by
  induction a with
  | nil =>
    simp only [List.nil_append]
    rw [replace_cons_nomatch v (ph_not_prefix_cons (by decide)),
      replace_cons_nomatch v (ph_not_prefix_cons (by decide))]
  | cons c cs ih =>
    simp only [List.cons_append]
    rw [replace_cons_nomatch v
      (ph_not_prefix_cons (wordChar_ne_lbrace (ha c (by simp))))]
    rw [ih (fun x hx => ha x (by simp [hx]))]

/-- Replacement walks over a leading foreign placeholder untouched. -/
theorem replace_ph_prefix {n k : String} (v : List Char) (hn : WordStr n)
    {l : List Char} (hq : ph n <+: l) (hp : (ph k).isPrefixOf l = false) :
    replaceChars (ph k) v l = ph n ++ replaceChars (ph k) v (l.drop (ph n).length) := by
  rcases hq with ⟨m, hm⟩
  subst hm
  rw [List.drop_left]
  rw [ph_eq_append] at hp ⊢
  rw [replace_cons_nomatch v hp,
    replace_cons_nomatch v (ph_not_prefix_lb_word hn _),
    replace_word_walk v (wordList_data_of_wordStr hn)]
  simp [ph]

/-- Replacing one supplied placeholder never destroys an occurrence of a
different placeholder. -/
theorem countOcc_replace_ge {n k : String} (hn : WordStr n) (hk : WordStr k)
    (hne : n ≠ k) (v : List Char) :
    ∀ l, countOcc (ph n) l ≤ countOcc (ph n) (replaceChars (ph k) v l) := by
  suffices H : ∀ len (l : List Char), l.length ≤ len →
      countOcc (ph n) l ≤ countOcc (ph n) (replaceChars (ph k) v l) by
    intro l; exact H l.length l (Nat.le_refl _)
  intro len
  induction len with
  | zero =>
    intro l hl
    have : l = [] := List.eq_nil_of_length_eq_zero (Nat.le_zero.mp hl)
    subst this
    simp [replaceChars, countOcc]
  | succ len ih =>
  intro l hlen
  by_cases hp : (ph k).isPrefixOf l = true
  · have hpp : ph k <+: l := (List.isPrefixOf_iff_prefix).mp hp
    rcases hpp with ⟨m, hm⟩
    subst hm
    rcases hc : ph k ++ m with _ | ⟨c, t⟩
    · exact absurd (List.append_eq_nil.mp hc).1 (ph_ne_nil k)
    · rw [← hc]
      rw [hc] at hp
      rw [hc, replace_cons_match v hp, ← hc, List.drop_left]
      have h1 : countOcc (ph n) (ph k ++ m) = countOcc (ph n) m := by
        rw [countOcc_ph_span hn hk, if_neg hne]
        omega
      have h2 : countOcc (ph n) m ≤ countOcc (ph n) (replaceChars (ph k) v m) := by
        refine ih m ?_
        have h3 : (ph k).length + m.length ≤ len + 1 := by simpa using hlen
        have hpos : 0 < (ph k).length := by simp [ph]
        omega
      calc countOcc (ph n) (ph k ++ m) = countOcc (ph n) m := h1
        _ ≤ countOcc (ph n) (replaceChars (ph k) v m) := h2
        _ ≤ countOcc (ph n) (v ++ replaceChars (ph k) v m) :=
            countOcc_append_right_le _ _ _
  · rw [Bool.not_eq_true] at hp
    by_cases hq : (ph n).isPrefixOf l = true
    · have hqq : ph n <+: l := (List.isPrefixOf_iff_prefix).mp hq
      have hrw := replace_ph_prefix v hn hqq hp
      rcases hqq with ⟨m, hm⟩
      subst hm
      rw [List.drop_left] at hrw
      rw [hrw, countOcc_ph_span hn hn, countOcc_ph_span hn hn, if_pos rfl]
      have : countOcc (ph n) m ≤ countOcc (ph n) (replaceChars (ph k) v m) := by
        refine ih m ?_
        have h3 : (ph n).length + m.length ≤ len + 1 := by simpa using hlen
        have hpos : 0 < (ph n).length := by simp [ph]
        omega
      omega
    · rw [Bool.not_eq_true] at hq
      rcases l with _ | ⟨c, t⟩
      · simp [replaceChars]
      · rw [replace_cons_nomatch v hp]
        have hrec : countOcc (ph n) t ≤ countOcc (ph n) (replaceChars (ph k) v t) := by
          refine ih t ?_
          have h4 := hlen
          simp only [List.length_cons] at h4
          omega
        have hL : countOcc (ph n) (c :: t) = countOcc (ph n) t := by
          simp [countOcc, hq]
        rw [hL]
        simp only [countOcc]
        split <;> omega

/-- Rendering can only increase the number of occurrences of a placeholder
whose name is supplied by none of the arguments. -/
theorem renderText_preserves_unsupplied {n : String} (hn : WordStr n) :
    ∀ (args : List (String × String)) (text : String),
      (∀ kv ∈ args, WordStr kv.1 ∧ kv.1 ≠ n) →
      countOcc (ph n) text.data ≤ countOcc (ph n) (renderText text args).data := by
  intro args
  induction args with
  | nil => intro text _; simp [renderText]
  | cons kv args' ih =>
    intro text hall
    have hstep : renderText text (kv :: args') =
        renderText (String.mk (replaceChars (ph kv.1) kv.2.data text.data)) args' := by
      simp [renderText, List.foldl, ph_string_data, ph]
    rw [hstep]
    have h1 : countOcc (ph n) text.data ≤
        countOcc (ph n) (String.mk (replaceChars (ph kv.1) kv.2.data text.data)).data := by
      exact countOcc_replace_ge hn (hall kv (by simp)).1
        (fun he => (hall kv (by simp)).2 he.symm) kv.2.data text.data
    exact Nat.le_trans h1 (ih _ (fun x hx => hall x (by simp [hx])))

-- ── Lemmas: dedupFirst ──────────────────────────────────────────────

theorem mem_dedupFirst {α : Type} [DecidableEq α] (x : α) (l : List α) :
    x ∈ dedupFirst l ↔ x ∈ l := by
  induction l using dedupFirst.induct with
  | case1 => simp [dedupFirst]
  | case2 y ys ih =>
    rw [dedupFirst]
    simp only [List.mem_cons, ih, List.mem_filter, decide_eq_true_eq]
    by_cases hxy : x = y
    · simp [hxy]
    · simp [hxy]

theorem nodup_dedupFirst {α : Type} [DecidableEq α] (l : List α) :
    (dedupFirst l).Nodup := by
  induction l using dedupFirst.induct with
  | case1 => simp [dedupFirst]
  | case2 y ys ih =>
    rw [dedupFirst]
    refine List.nodup_cons.mpr ⟨?_, ih⟩
    intro hy
    have := (mem_dedupFirst y _).mp hy
    simp at this

theorem indexOf_filter_lt {α : Type} [DecidableEq α] (p : α → Bool) :
    ∀ (l : List α) (a b : α), a ∈ l.filter p → b ∈ l.filter p →
      (l.filter p).indexOf a < (l.filter p).indexOf b →
      l.indexOf a < l.indexOf b := by
  intro l
  induction l with
  | nil => intro a b ha _ _; simp at ha
  | cons c ls ih =>
    intro a b ha hb hlt
    by_cases hpc : p c = true
    · rw [List.filter_cons_of_pos hpc] at ha hb hlt
      by_cases hac : a = c
      · subst hac
        have hba : b ≠ a := by
          intro he
          subst he
          omega
        rw [List.indexOf_cons_self, List.indexOf_cons_ne ls (fun h => hba h.symm)]
        omega
      · have ha' : a ∈ ls.filter p := by
          rcases List.mem_cons.mp ha with h | h
          · exact absurd h hac
          · exact h
        rw [List.indexOf_cons_ne _ (fun h => hac h.symm)] at hlt
        by_cases hbc : b = c
        · subst hbc
          rw [List.indexOf_cons_self] at hlt
          omega
        · have hb' : b ∈ ls.filter p := by
            rcases List.mem_cons.mp hb with h | h
            · exact absurd h hbc
            · exact h
          rw [List.indexOf_cons_ne _ (fun h => hbc h.symm)] at hlt
          rw [List.indexOf_cons_ne ls (fun h => hac h.symm),
            List.indexOf_cons_ne ls (fun h => hbc h.symm)]
          have := ih a b ha' hb' (by omega)
          omega
    · rw [List.filter_cons_of_neg (by simpa using hpc)] at ha hb hlt
      have hac : a ≠ c := by
        intro he
        subst he
        exact hpc (List.mem_filter.mp ha).2
      have hbc : b ≠ c := by
        intro he
        subst he
        exact hpc (List.mem_filter.mp hb).2
      rw [List.indexOf_cons_ne ls (fun h => hac h.symm),
        List.indexOf_cons_ne ls (fun h => hbc h.symm)]
      have := ih a b ha hb hlt
      omega

/-- `dedupFirst` lists its elements in order of first occurrence. -/
theorem dedupFirst_pairwise_indexOf {α : Type} [DecidableEq α] (l : List α) :
    (dedupFirst l).Pairwise (fun a b => l.indexOf a < l.indexOf b) := by
  induction l using dedupFirst.induct with
  | case1 => simp [dedupFirst]
  | case2 y ys ih =>
    rw [dedupFirst]
    refine List.pairwise_cons.mpr ⟨?_, ?_⟩
    · intro b hb
      have hbmem := (mem_dedupFirst b _).mp hb
      have hbne : b ≠ y := by
        have := (List.mem_filter.mp hbmem).2
        simpa using this
      rw [List.indexOf_cons_self, List.indexOf_cons_ne ys (fun h => hbne h.symm)]
      omega
    · refine List.Pairwise.imp_of_mem ?_ ih
      intro a b ha hb hlt
      have ha' := (mem_dedupFirst a _).mp ha
      have hb' := (mem_dedupFirst b _).mp hb
      have hane : a ≠ y := by
        have := (List.mem_filter.mp ha').2
        simpa using this
      have hbne : b ≠ y := by
        have := (List.mem_filter.mp hb').2
        simpa using this
      rw [List.indexOf_cons_ne ys (fun h => hane h.symm),
        List.indexOf_cons_ne ys (fun h => hbne h.symm)]
      have := indexOf_filter_lt _ ys a b ha' hb' hlt
      omega

-- ── Lemmas: findPlaceholders ────────────────────────────────────────

theorem takeWordRun_append : ∀ l : List Char,
    (takeWordRun l).1 ++ (takeWordRun l).2 = l
  | [] => rfl
  | c :: rest => by
    simp only [takeWordRun]
    by_cases h : wordChar c = true
    · simp only [h, if_true, List.cons_append]
      rw [takeWordRun_append rest]
    · simp [h]

theorem takeWordRun_wordList : ∀ l : List Char, WordList (takeWordRun l).1
  | [] => by intro x hx; simp [takeWordRun] at hx
  | c :: rest => by
    intro x hx
    simp only [takeWordRun] at hx
    by_cases h : wordChar c = true
    · simp only [h, if_true] at hx
      rcases List.mem_cons.mp hx with h1 | h1
      · subst h1; exact h
      · exact takeWordRun_wordList rest x h1
    · simp [h] at hx

theorem takeWordRun_snd_head : ∀ l : List Char, ∀ c r,
    (takeWordRun l).2 = c :: r → wordChar c = false
  | [] => by intro c r h; simp [takeWordRun] at h
  | d :: rest => by
    intro c r h
    simp only [takeWordRun] at h
    by_cases hd : wordChar d = true
    · simp only [hd, if_true] at h
      exact takeWordRun_snd_head rest c r h
    · have hd' : wordChar d = false := by simpa using hd
      rw [hd'] at h
      simp only [Bool.false_eq_true, if_false] at h
      have hc : c = d := by
        have := congrArg (fun x => x.head?) h
        simpa using this.symm
      subst hc
      exact hd'

theorem takeWordRun_fst_nil {l snd : List Char} (h : takeWordRun l = ([], snd)) :
    snd = l ∧ ∀ c r, l = c :: r → wordChar c = false := by
  rcases l with _ | ⟨c, rest⟩
  · have hsnd : snd = [] := by
      simp only [takeWordRun, Prod.mk.injEq, true_and] at h
      exact h.symm
    exact ⟨hsnd, by intro c r hc; cases hc⟩
  · simp only [takeWordRun] at h
    by_cases hc : wordChar c = true
    · simp [hc] at h
    · simp only [hc, Bool.false_eq_true, if_false, Prod.mk.injEq] at h
      refine ⟨h.2.symm, ?_⟩
      intro c' r' hcr
      have : c' = c := by
        have := congrArg (fun x => x.head?) hcr
        simpa using this.symm
      subst this
      simpa using hc

theorem findPlaceholders_nil : findPlaceholders [] = [] := by
  rw [findPlaceholders]

theorem findPlaceholders_advance_empty {rest snd : List Char}
    (hw : takeWordRun rest = ([], snd)) :
    findPlaceholders ('\x7b':: '\x7b'::rest) = findPlaceholders ('\x7b'::rest) := by
  rw [findPlaceholders]
  split
  · rfl
  · next c w rest2 hw2 => rw [hw] at hw2; simp at hw2
  · rfl

theorem findPlaceholders_match {rest : List Char} {c : Char} {w rest' : List Char}
    (hw : takeWordRun rest = (c :: w, '\x7d':: '\x7d'::rest')) :
    findPlaceholders ('\x7b':: '\x7b'::rest)
      = String.mk (c :: w) :: findPlaceholders rest' := by
  rw [findPlaceholders]
  split
  · next snd2 hw2 => rw [hw] at hw2; simp at hw2
  · next c2 w2 rest2 hw2 =>
      rw [hw] at hw2
      simp only [Prod.mk.injEq, List.cons.injEq] at hw2
      rw [hw2.1.1, hw2.1.2, hw2.2.2.2]
  · next c2 w2 snd2 hnot hw2 =>
      rw [hw] at hw2
      exfalso
      have h2 : snd2 = '\x7d':: '\x7d'::rest' := by
        have := congrArg Prod.snd hw2
        simpa using this.symm
      exact hnot rest' h2

theorem findPlaceholders_advance_noRR {rest snd : List Char} {c : Char} {w : List Char}
    (hw : takeWordRun rest = (c :: w, snd))
    (hnot : ∀ rest', ¬ snd = '\x7d':: '\x7d'::rest') :
    findPlaceholders ('\x7b':: '\x7b'::rest) = findPlaceholders ('\x7b'::rest) := by
  rw [findPlaceholders]
  split
  · rfl
  · next c2 w2 rest2 hw2 =>
      rw [hw] at hw2
      exfalso
      have h2 : snd = '\x7d':: '\x7d'::rest2 := by
        have := congrArg Prod.snd hw2
        simpa using this
      exact hnot rest2 h2
  · rfl

theorem findPlaceholders_cons_other {head : Char} {rest : List Char}
    (hno : ∀ r1, head = '\x7b' → rest = '\x7b'::r1 → False) :
    findPlaceholders (head :: rest) = findPlaceholders rest := by
  rw [findPlaceholders]
  exact hno

/-- A placeholder cannot start where the scanner's word run is empty. -/
theorem ph_not_prefix_braces_nonword {s : String} (hs : WordStr s)
    {rest : List Char} (hrest : ∀ c r, rest = c :: r → wordChar c = false) :
    (ph s).isPrefixOf ('\x7b':: '\x7b'::rest) = false := by
  rw [← Bool.not_eq_true, List.isPrefixOf_iff_prefix]
  intro hp
  rcases hp with ⟨t, ht⟩
  rw [ph_eq_append] at ht
  simp only [List.cons_append, List.cons.injEq, true_and] at ht
  have ht' : s.data ++ '\x7d' :: '\x7d' :: t = rest := by simpa using ht
  rcases hd : s.data with _ | ⟨c0, cs⟩
  · exact hs.1 hd
  · rw [hd] at ht'
    have hw0 : wordChar c0 = false := hrest c0 _ ht'.symm
    have := hs.2 c0 (by rw [hd]; simp)
    rw [hw0] at this
    exact Bool.false_ne_true this

/-- A placeholder cannot start where the scanner found a word run that is
not closed by `}}`. -/
theorem ph_not_prefix_braces_noRR {s : String} (hs : WordStr s)
    {rest snd : List Char} {c : Char} {w : List Char}
    (hw : takeWordRun rest = (c :: w, snd))
    (hnot : ∀ rest', ¬ snd = '\x7d':: '\x7d'::rest') :
    (ph s).isPrefixOf ('\x7b':: '\x7b'::rest) = false := by
  rw [← Bool.not_eq_true, List.isPrefixOf_iff_prefix]
  intro hp
  rcases hp with ⟨t, ht⟩
  rw [ph_eq_append] at ht
  simp only [List.cons_append, List.cons.injEq, true_and] at ht
  have ht' : s.data ++ '\x7d' :: '\x7d' :: t = rest := by simpa using ht
  have hsplit : (c :: w) ++ snd = rest := by
    have := takeWordRun_append rest
    rw [hw] at this
    simpa using this
  have hpref : (s.data ++ ['\x7d', '\x7d']) <+: ((c :: w) ++ snd) := by
    rw [hsplit, ← ht']
    exact ⟨t, by simp⟩
  have hsnd : snd = [] ∨ ∀ c' r', snd = c' :: r' → wordChar c' = false := by
    rcases snd with _ | ⟨c', r'⟩
    · exact Or.inl rfl
    · right
      intro c2 r2 h2
      have hc2 : c2 = c' := by
        have := congrArg (fun x => x.head?) h2
        simpa using this.symm
      subst hc2
      exact takeWordRun_snd_head rest c2 r' (by rw [hw])
  have hrr := word_rr_prefix_eq s.data (c :: w) snd
    (wordList_data_of_wordStr hs)
    (fun x hx => takeWordRun_wordList rest x (by rw [hw]; exact hx))
    hsnd hpref
  rcases hrr.2 with ⟨t2, ht2⟩
  exact hnot t2 ht2.symm

theorem countOcc_cons_le (q : List Char) (c : Char) (t : List Char) :
    countOcc q t ≤ countOcc q (c :: t) := by
  simp only [countOcc]
  omega

/-- A name is produced by the placeholder scan exactly when it is a
non-empty word identifier whose wrapped form occurs in the text: the
scanner finds precisely the `{{name}}` substring occurrences. -/
theorem mem_findPlaceholders : ∀ (l : List Char) (s : String),
    s ∈ findPlaceholders l ↔ (WordStr s ∧ 1 ≤ countOcc (ph s) l) := by
  intro l
  induction l using findPlaceholders.induct with
  | case1 rest snd hw ih =>
    intro s
    rw [findPlaceholders_advance_empty hw]
    rw [ih s]
    have hrest := (takeWordRun_fst_nil hw).2
    constructor
    · rintro ⟨hws, hcnt⟩
      refine ⟨hws, ?_⟩
      calc 1 ≤ countOcc (ph s) ('\x7b'::rest) := hcnt
        _ ≤ countOcc (ph s) ('\x7b':: '\x7b'::rest) := countOcc_cons_le _ _ _
    · rintro ⟨hws, hcnt⟩
      refine ⟨hws, ?_⟩
      have hnp := ph_not_prefix_braces_nonword hws hrest
      have hunfold : countOcc (ph s) ('\x7b':: '\x7b'::rest)
          = (if (ph s).isPrefixOf ('\x7b':: '\x7b'::rest) then 1 else 0)
            + countOcc (ph s) ('\x7b'::rest) := rfl
      rw [hunfold, hnp] at hcnt
      simpa using hcnt
  | case2 rest c w rest' hw ih =>
    intro s
    rw [findPlaceholders_match hw]
    have hsplit : rest = (c :: w) ++ '\x7d':: '\x7d'::rest' := by
      have := takeWordRun_append rest
      rw [hw] at this
      simp only at this
      exact this.symm
    have hl : '\x7b':: '\x7b'::rest = ph (String.mk (c :: w)) ++ rest' := by
      rw [hsplit, ph_eq_append]
    have hwt : WordStr (String.mk (c :: w)) := by
      constructor
      · simp
      · intro x hx
        exact takeWordRun_wordList rest x (by rw [hw]; exact hx)
    constructor
    · intro hmem
      rcases List.mem_cons.mp hmem with he | hmem'
      · subst he
        refine ⟨hwt, ?_⟩
        rw [hl, countOcc_ph_span hwt hwt, if_pos rfl]
        omega
      · have := (ih s).mp hmem'
        refine ⟨this.1, ?_⟩
        rw [hl]
        calc 1 ≤ countOcc (ph s) rest' := this.2
          _ ≤ countOcc (ph s) (ph (String.mk (c :: w)) ++ rest') :=
            countOcc_append_right_le _ _ _
    · rintro ⟨hws, hcnt⟩
      rw [hl, countOcc_ph_span hws hwt] at hcnt
      by_cases he : s = String.mk (c :: w)
      · exact List.mem_cons.mpr (Or.inl he)
      · rw [if_neg he] at hcnt
        refine List.mem_cons.mpr (Or.inr ((ih s).mpr ⟨hws, ?_⟩))
        omega
  | case3 rest c w snd hnot hw ih =>
    intro s
    rw [findPlaceholders_advance_noRR hw (fun r h => hnot r h)]
    rw [ih s]
    constructor
    · rintro ⟨hws, hcnt⟩
      refine ⟨hws, ?_⟩
      calc 1 ≤ countOcc (ph s) ('\x7b'::rest) := hcnt
        _ ≤ countOcc (ph s) ('\x7b':: '\x7b'::rest) := countOcc_cons_le _ _ _
    · rintro ⟨hws, hcnt⟩
      refine ⟨hws, ?_⟩
      have hnp := ph_not_prefix_braces_noRR hws hw (fun r h => hnot r h)
      have hunfold : countOcc (ph s) ('\x7b':: '\x7b'::rest)
          = (if (ph s).isPrefixOf ('\x7b':: '\x7b'::rest) then 1 else 0)
            + countOcc (ph s) ('\x7b'::rest) := rfl
      rw [hunfold, hnp] at hcnt
      simpa using hcnt
  | case4 head rest hno ih =>
    intro s
    rw [findPlaceholders_cons_other hno]
    rw [ih s]
    constructor
    · rintro ⟨hws, hcnt⟩
      exact ⟨hws, Nat.le_trans hcnt (countOcc_cons_le _ _ _)⟩
    · rintro ⟨hws, hcnt⟩
      refine ⟨hws, ?_⟩
      have hnp : (ph s).isPrefixOf (head :: rest) = false := by
        rw [← Bool.not_eq_true, List.isPrefixOf_iff_prefix]
        intro hp
        rcases hp with ⟨t, ht⟩
        rw [ph_eq_append] at ht
        rcases List.cons.injEq _ _ _ _ ▸ ht with ⟨h1, h2⟩
        exact hno (s.data ++ '\x7d' :: '\x7d' :: t) h1.symm (by
          rw [← h2])
      have hunfold : countOcc (ph s) (head :: rest)
          = (if (ph s).isPrefixOf (head :: rest) then 1 else 0)
            + countOcc (ph s) rest := rfl
      rw [hunfold, hnp] at hcnt
      simpa using hcnt
  | case5 =>
    intro s
    rw [findPlaceholders_nil]
    simp [countOcc]

-- ── Lemmas: chain walk ──────────────────────────────────────────────

theorem getChainAux_none (cat : Catalog) (visited : List String) :
    Catalog.getChainAux cat visited none = [] := by
  rw [Catalog.getChainAux]

theorem getChainAux_stop {cat : Catalog} {visited : List String} {cid : String}
    (h : cid = "" ∨ cid ∈ visited) :
    Catalog.getChainAux cat visited (some cid) = [] := by
  rw [Catalog.getChainAux]
  rw [dif_pos h]

theorem getChainAux_miss {cat : Catalog} {visited : List String} {cid : String}
    (h : ¬ (cid = "" ∨ cid ∈ visited)) (hm : dictGet cat.prompts cid = none) :
    Catalog.getChainAux cat visited (some cid) = [] := by
  rw [Catalog.getChainAux]
  rw [dif_neg h]
  split
  · rfl
  · next p hp => rw [hm] at hp; cases hp

theorem getChainAux_step {cat : Catalog} {visited : List String} {cid : String}
    {p : PromptEntry} (h : ¬ (cid = "" ∨ cid ∈ visited))
    (hm : dictGet cat.prompts cid = some p) :
    Catalog.getChainAux cat visited (some cid)
      = p :: Catalog.getChainAux cat (cid :: visited) p.chainNext.head? := by
  rw [Catalog.getChainAux]
  rw [dif_neg h]
  split
  · next hp => rw [hm] at hp; cases hp
  · next p2 hp =>
      rw [hm] at hp
      have : p2 = p := by injection hp with h2; exact h2.symm
      rw [this]

-- ── Lemmas: sortByName membership ───────────────────────────────────

theorem mem_insertByName {β : Type} (x y : String × β) (l : List (String × β)) :
    x ∈ insertByName y l ↔ x = y ∨ x ∈ l := by
  induction l with
  | nil => simp [insertByName]
  | cons z zs ih =>
    simp only [insertByName]
    split
    · simp
    · simp only [List.mem_cons, ih]
      tauto

theorem mem_sortByName {β : Type} (x : String × β) (l : List (String × β)) :
    x ∈ sortByName l ↔ x ∈ l := by
  induction l with
  | nil => simp [sortByName]
  | cons z zs ih =>
    simp only [sortByName, mem_insertByName, ih, List.mem_cons]

-- ── Sample records for concrete instances ───────────────────────────

/-- A minimal well-formed prompt record, as the loader would produce it. -/
def samplePromptEntry (i : String) (text : String) (lvl : String)
    (next : List String) : PromptEntry :=
  { id := i, version := "1.0.0", title := i, description := "",
    category := "planning", subcategory := "", skill_level := lvl,
    platforms := [], tags := [], prompt_text := text, «variables» := [],
    expected_output := "", quality_criteria := [], anti_patterns := [],
    adversarial_tests := [], related_prompts := [],
    chain_position := [("next", next)], file_path := "", raw := .map [] }

-- ── Claim theorems ──────────────────────────────────────────────────

/-- C5: for every prompt record, `extract_variable_names` returns the
distinct placeholder names (identifiers over `[A-Za-z0-9_]`, wrapped in
double braces) that occur in the prompt template text — without duplicates,
in order of first occurrence — and on the template
`"Use {{a}} and {{b}} and {{a}} again"` it returns `["a", "b"]`. -/
theorem c5_extract_variable_names (p : PromptEntry) :
    p.extract_variable_names.Nodup
    ∧ (∀ s, s ∈ p.extract_variable_names
        ↔ (WordStr s ∧ 1 ≤ countOcc (ph s) p.prompt_text.data))
    ∧ p.extract_variable_names.Pairwise (fun a b =>
        (findPlaceholders p.prompt_text.data).indexOf a
          < (findPlaceholders p.prompt_text.data).indexOf b)
    ∧ (samplePromptEntry "u" "Use {{a}} and {{b}} and {{a}} again"
        "intermediate" []).extract_variable_names = ["a", "b"] := by
  refine ⟨nodup_dedupFirst _, ?_, dedupFirst_pairwise_indexOf _, ?_⟩
  · intro s
    rw [PromptEntry.extract_variable_names, mem_dedupFirst,
      mem_findPlaceholders]
  · simp [PromptEntry.extract_variable_names, samplePromptEntry,
      findPlaceholders, takeWordRun, wordChar, dedupFirst]

/-- C6: rendering substitutes every occurrence of each supplied placeholder
and leaves unsupplied placeholders verbatim (their occurrence count never
drops); the template `"{{x}} and {{y}}"` with only `x` supplied renders to
`"A and {{y}}"`, and rendering that template a second time with the full
mapping leaves the output unchanged. -/
theorem c6_render (p : PromptEntry) (arguments : List (String × String))
    (n : String) (hn : WordStr n)
    (hargs : ∀ kv ∈ arguments, WordStr kv.1)
    (hun : ∀ kv ∈ arguments, kv.1 ≠ n) :
    countOcc (ph n) p.prompt_text.data
      ≤ countOcc (ph n) (p.render arguments).data
    ∧ renderText "\x7b\x7bx\x7d\x7d and \x7b\x7by\x7d\x7d" [("x", "A")]
        = "A and \x7b\x7by\x7d\x7d"
    ∧ renderText
        (renderText "\x7b\x7bx\x7d\x7d and \x7b\x7by\x7d\x7d"
          [("x", "A"), ("y", "B")])
        [("x", "A"), ("y", "B")]
      = renderText "\x7b\x7bx\x7d\x7d and \x7b\x7by\x7d\x7d"
          [("x", "A"), ("y", "B")] := by
  refine ⟨?_, ?_, ?_⟩
  · exact renderText_preserves_unsupplied hn arguments p.prompt_text
      (fun kv hkv => ⟨hargs kv hkv, hun kv hkv⟩)
  · simp [renderText, replaceChars]
  · simp [renderText, replaceChars]

/-- C6 witness: the theorem applied to a concrete record, mapping and
unsupplied name. -/
theorem c6_render_witness :
    countOcc (ph "y")
        (samplePromptEntry "x" "\x7b\x7bx\x7d\x7d and \x7b\x7by\x7d\x7d"
          "intermediate" []).prompt_text.data
      ≤ countOcc (ph "y")
        ((samplePromptEntry "x" "\x7b\x7bx\x7d\x7d and \x7b\x7by\x7d\x7d"
          "intermediate" []).render [("x", "A")]).data
    ∧ renderText "\x7b\x7bx\x7d\x7d and \x7b\x7by\x7d\x7d" [("x", "A")]
        = "A and \x7b\x7by\x7d\x7d"
    ∧ renderText
        (renderText "\x7b\x7bx\x7d\x7d and \x7b\x7by\x7d\x7d"
          [("x", "A"), ("y", "B")])
        [("x", "A"), ("y", "B")]
      = renderText "\x7b\x7bx\x7d\x7d and \x7b\x7by\x7d\x7d"
          [("x", "A"), ("y", "B")] :=
  c6_render (samplePromptEntry "x" "\x7b\x7bx\x7d\x7d and \x7b\x7by\x7d\x7d"
      "intermediate" [])
    [("x", "A")] "y" (by decide)
    (by intro kv hkv; simp at hkv; rw [hkv]; decide)
    (by intro kv hkv; simp at hkv; rw [hkv]; decide)

theorem dictGet_some_pair {β : Type} {d : List (String × β)} {k : String} {v : β}
    (h : dictGet d k = some v) : (k, v) ∈ d := by
  unfold dictGet at h
  rcases ho : d.find? (fun kv => kv.1 == k) with _ | kv
  · rw [ho] at h; simp at h
  · have hp := List.find?_some ho
    have hm := List.mem_of_find?_eq_some ho
    rw [ho] at h
    rcases kv with ⟨k1, v1⟩
    simp only [beq_iff_eq] at hp
    simp at h
    rw [← hp, ← h]
    exact hm

/-- The chain-walk invariant: under a well-keyed catalog the identifiers of
the returned records are distinct and avoid the visited set. -/
theorem getChainAux_invariant (cat : Catalog)
    (hwf : ∀ kv ∈ cat.prompts, kv.2.id = kv.1) (visited : List String)
    (cur : Option String) :
    ((Catalog.getChainAux cat visited cur).map (fun p => p.id)).Nodup
    ∧ ∀ x ∈ (Catalog.getChainAux cat visited cur).map (fun p => p.id),
        x ∉ visited := by
  induction visited, cur using Catalog.getChainAux.induct cat with
  | case1 visited =>
    rw [getChainAux_none]
    exact ⟨List.Pairwise.nil, by intro x hx; simp at hx⟩
  | case2 visited cid h =>
    rw [getChainAux_stop h]
    exact ⟨List.Pairwise.nil, by intro x hx; simp at hx⟩
  | case3 visited cid h hm =>
    rw [getChainAux_miss h hm]
    exact ⟨List.Pairwise.nil, by intro x hx; simp at hx⟩
  | case4 visited cid h p hm ih =>
    rw [getChainAux_step h hm]
    have hpid : p.id = cid := hwf (cid, p) (dictGet_some_pair hm)
    simp only [List.map_cons, List.nodup_cons, List.mem_cons]
    push_neg at h
    constructor
    · constructor
      · intro hin
        have := ih.2 p.id hin
        simp [hpid] at this
      · exact ih.1
    · intro x hx
      rcases hx with hx | hx
      · rw [hx, hpid]; exact h.2
      · intro hv
        exact ih.2 x hx (List.mem_cons_of_mem _ hv)

/-- A two-record cyclic catalog (A → B → A) for the chain-walk claim. -/
def chainCatalogAB : Catalog :=
  { root := "/r",
    prompts := [("A", samplePromptEntry "A" "" "intermediate" ["B"]),
                ("B", samplePromptEntry "B" "" "intermediate" ["A"])],
    instructions := [], starter_kits := [] }

/-- C3: for a well-keyed catalog the chain walk visits each identifier at
most once (the returned records have pairwise-distinct identifiers, so the
walk terminates rather than looping), and on a catalog with records A and B
whose `next` lists point at each other, `get_chain A` returns exactly
`[A, B]`. -/
theorem c3_get_chain (cat : Catalog)
    (hwf : ∀ kv ∈ cat.prompts, kv.2.id = kv.1) (start_id : String) :
    ((cat.get_chain start_id).map (fun p => p.id)).Nodup
    ∧ (chainCatalogAB.get_chain "A").map (fun p => p.id) = ["A", "B"] := by
  constructor
  · exact (getChainAux_invariant cat hwf [] (some start_id)).1
  · have e1 : dictGet chainCatalogAB.prompts "A"
        = some (samplePromptEntry "A" "" "intermediate" ["B"]) := rfl
    have e2 : dictGet chainCatalogAB.prompts "B"
        = some (samplePromptEntry "B" "" "intermediate" ["A"]) := rfl
    have h1 : ¬ (("A" : String) = "" ∨ ("A" : String) ∈ ([] : List String)) := by
      simp
    have h2 : ¬ (("B" : String) = "" ∨ ("B" : String) ∈ (["A"] : List String)) := by
      decide
    rw [Catalog.get_chain, getChainAux_step h1 e1]
    have hn1 : (samplePromptEntry "A" "" "intermediate" ["B"]).chainNext.head?
        = some "B" := rfl
    rw [hn1, getChainAux_step h2 e2]
    have hn2 : (samplePromptEntry "B" "" "intermediate" ["A"]).chainNext.head?
        = some "A" := rfl
    rw [hn2, getChainAux_stop (by decide)]
    rfl

/-- C3 witness: the theorem applied to the concrete two-record catalog. -/
theorem c3_get_chain_witness :
    ((chainCatalogAB.get_chain "A").map (fun p => p.id)).Nodup
    ∧ (chainCatalogAB.get_chain "A").map (fun p => p.id) = ["A", "B"] :=
  c3_get_chain chainCatalogAB (by decide) "A"

/-- C4: `resolve_kit` fails exactly when the kit identifier is absent from
the starter-kit map; otherwise it returns the referenced prompt records and
instruction records that resolve in the catalog, silently omitting every
unresolved reference and raising no error for partial resolution. -/
theorem c4_resolve_kit (cat : Catalog) (kit_id : String) :
    ((∃ e, cat.resolve_kit kit_id = .error e)
      ↔ dictGet cat.starter_kits kit_id = none)
    ∧ ∀ kit, dictGet cat.starter_kits kit_id = some kit →
        ∃ ps qs, cat.resolve_kit kit_id = .ok (ps, qs)
          ∧ (∀ p, p ∈ ps ↔ ∃ pid, pid ∈ kit.prompts
              ∧ dictGet cat.prompts pid = some p)
          ∧ (∀ i, i ∈ qs ↔ ∃ iid, iid ∈ kit.instructions
              ∧ dictGet cat.instructions iid = some i) := by
  constructor
  · constructor
    · rintro ⟨e, he⟩
      rcases hk : dictGet cat.starter_kits kit_id with _ | kit
      · rfl
      · unfold Catalog.resolve_kit at he
        rw [hk] at he
        cases he
    · intro hk
      refine ⟨.valueError ("Starter kit not found: " ++ kit_id), ?_⟩
      unfold Catalog.resolve_kit
      rw [hk]
  · intro kit hk
    refine ⟨kit.prompts.filterMap (fun pid => dictGet cat.prompts pid),
      kit.instructions.filterMap (fun iid => dictGet cat.instructions iid),
      ?_, ?_, ?_⟩
    · unfold Catalog.resolve_kit
      rw [hk]
    · intro p
      exact List.mem_filterMap
    · intro i
      exact List.mem_filterMap

/-- A starter kit referencing one resolvable and one dangling prompt id. -/
def sampleKit : StarterKit :=
  { id := "k", name := "K", description := "", target_audience := "",
    prompts := ["A", "missing"], instructions := ["guardrails/test"],
    tags := [], raw := .map [] }

/-- A catalog holding one prompt record and the sample kit. -/
def kitCatalog : Catalog :=
  { root := "/r",
    prompts := [("A", samplePromptEntry "A" "" "intermediate" [])],
    instructions := [], starter_kits := [("k", sampleKit)] }

/-- C4 witness: a missing kit id errors; the sample kit resolves to exactly
its one matching prompt record with no error. -/
theorem c4_resolve_kit_witness :
    (∃ e, kitCatalog.resolve_kit "zz" = .error e)
    ∧ ∃ ps qs, kitCatalog.resolve_kit "k" = .ok (ps, qs)
        ∧ (∀ p, p ∈ ps ↔ ∃ pid, pid ∈ sampleKit.prompts
            ∧ dictGet kitCatalog.prompts pid = some p)
        ∧ (∀ i, i ∈ qs ↔ ∃ iid, iid ∈ sampleKit.instructions
            ∧ dictGet kitCatalog.instructions iid = some i) :=
  ⟨(c4_resolve_kit kitCatalog "zz").1.mpr rfl,
   (c4_resolve_kit kitCatalog "k").2 sampleKit rfl⟩

-- ── C7: skill-level filtering ───────────────────────────────────────

/-- One record's outcome when only a maximum skill level is requested. -/
theorem promptMatches_skill_only {lvl : String} (p : PromptEntry)
    (hlvl : lvl ∈ SKILL_ORDER) (hp : p.skill_level ∈ SKILL_ORDER) :
    promptMatches none none (some lvl) none none none p
      = .ok (decide (SKILL_ORDER.indexOf p.skill_level
          ≤ SKILL_ORDER.indexOf lvl)) := by
  unfold promptMatches
  simp only [SKILL_ORDER, List.mem_cons, List.not_mem_nil, or_false] at hlvl hp
  rcases hp with h2 | h2 | h2 | h2 <;> rw [h2] <;>
    rcases hlvl with h1 | h1 | h1 | h1 <;> rw [h1] <;> rfl

theorem except_ok_bind {ε α β : Type} (x : α) (k : α → Except ε β) :
    (Except.ok x >>= k) = k x := rfl

theorem except_pure_eq_ok {ε α : Type} (x : α) :
    (pure x : Except ε α) = .ok x := rfl

/-- The filtering fold with only a skill criterion is the pure filter. -/
theorem filter_prompts_skill_fold {lvl : String} (hlvl : lvl ∈ SKILL_ORDER) :
    ∀ (ps : List PromptEntry) (acc : List PromptEntry),
      (∀ p ∈ ps, p.skill_level ∈ SKILL_ORDER) →
      (ps.foldlM
        (fun acc p => do
          if (← promptMatches none none (some lvl) none none none p) then
            pure (acc ++ [p])
          else pure acc)
        acc : Except PyError (List PromptEntry))
      = .ok (acc ++ ps.filter (fun p =>
          SKILL_ORDER.indexOf p.skill_level ≤ SKILL_ORDER.indexOf lvl)) := by
  intro ps
  induction ps with
  | nil =>
    intro acc _
    rw [List.filter_nil, List.append_nil]
    rfl
  | cons p ps' ih =>
    intro acc hall
    rw [List.foldlM_cons]
    have hm := promptMatches_skill_only p hlvl (hall p (by simp))
    by_cases hd : SKILL_ORDER.indexOf p.skill_level ≤ SKILL_ORDER.indexOf lvl
    · rw [List.filter_cons_of_pos (by simpa using hd)]
      simp only [hm, decide_eq_true hd, except_ok_bind, except_pure_eq_ok,
        if_true]
      have ih' := ih (acc ++ [p]) (fun q hq => hall q (by simp [hq]))
      simp only [except_pure_eq_ok] at ih'
      rw [ih']
      simp [List.append_assoc]
    · rw [List.filter_cons_of_neg (by simpa using hd)]
      have hd' : decide (SKILL_ORDER.indexOf p.skill_level
          ≤ SKILL_ORDER.indexOf lvl) = false := by
        simpa using hd
      simp only [hm, hd', except_ok_bind, except_pure_eq_ok,
        Bool.false_eq_true, if_false]
      have ih' := ih acc (fun q hq => hall q (by simp [hq]))
      simp only [except_pure_eq_ok] at ih'
      exact ih'

/-- A catalog with one record per skill level. -/
def skillCatalog : Catalog :=
  { root := "/r",
    prompts := [("b", samplePromptEntry "b" "" "beginner" []),
                ("i", samplePromptEntry "i" "" "intermediate" []),
                ("a", samplePromptEntry "a" "" "advanced" []),
                ("e", samplePromptEntry "e" "" "expert" [])],
    instructions := [], starter_kits := [] }

/-- C7: when every record's skill level lies on the 4-point ordinal scale,
filtering with a maximum skill level keeps exactly the records ranked at or
below the requested level; with max skill `"intermediate"` the beginner and
intermediate records are kept and the advanced and expert records are
excluded. -/
theorem c7_filter_skill (cat : Catalog) (lvl : String)
    (hlvl : lvl ∈ SKILL_ORDER)
    (hcat : ∀ kv ∈ cat.prompts, kv.2.skill_level ∈ SKILL_ORDER) :
    cat.filter_prompts none none (some lvl) none none none
      = .ok ((cat.prompts.map (fun kv => kv.2)).filter (fun p =>
          SKILL_ORDER.indexOf p.skill_level ≤ SKILL_ORDER.indexOf lvl))
    ∧ skillCatalog.filter_prompts none none (some "intermediate") none none none
      = .ok [samplePromptEntry "b" "" "beginner" [],
             samplePromptEntry "i" "" "intermediate" []] := by
  constructor
  · unfold Catalog.filter_prompts
    have h := filter_prompts_skill_fold hlvl (cat.prompts.map (fun kv => kv.2))
      []
      (fun p hp => by
        rcases List.mem_map.mp hp with ⟨kv, hkv, he⟩
        rw [← he]
        exact hcat kv hkv)
    rw [h, List.nil_append]
  · unfold Catalog.filter_prompts
    have h := @filter_prompts_skill_fold "intermediate" (by decide)
      (skillCatalog.prompts.map (fun kv => kv.2)) [] (by decide)
    rw [h]
    rfl

/-- C7 witness: the theorem applied to the four-record catalog at max skill
`"intermediate"`. -/
theorem c7_filter_skill_witness :
    skillCatalog.filter_prompts none none (some "intermediate") none none none
      = .ok ((skillCatalog.prompts.map (fun kv => kv.2)).filter (fun p =>
          SKILL_ORDER.indexOf p.skill_level
            ≤ SKILL_ORDER.indexOf "intermediate"))
    ∧ skillCatalog.filter_prompts none none (some "intermediate") none none none
      = .ok [samplePromptEntry "b" "" "beginner" [],
             samplePromptEntry "i" "" "intermediate" []] :=
  c7_filter_skill skillCatalog "intermediate" (by decide) (by decide)

/-- C2 counterexample: an instruction file with no header block at all (text
not starting with the `---` marker) parses successfully into a record
populated with defaults (`name` falls back to the path stem), refuting the
claim that a missing header block is a failure. -/
theorem c2_counterexample :
    InstructionEntry.from_path (fun _ => .ok .null) "guardrails"
      "/cat/instructions/guardrails/no-fm.instructions.md"
      "no-fm.instructions" "# No frontmatter\nJust content."
      = .ok { stem := "no-fm.instructions", scope := "guardrails",
              file_path := "/cat/instructions/guardrails/no-fm.instructions.md",
              name := .str "no-fm.instructions", description := .str "" } := by
  rfl

/-- C2 amended: only a file that OPENS with the `---` marker but lacks a
second occurrence fails (uncaught `ValueError` from `text.index`); a file
not starting with the marker is not a failure — it produces a record with
default metadata, the name falling back to the path stem. -/
theorem c2_amended (safeLoad : String → Except String Yaml)
    (scope pathStr pathStem text : String) :
    ("---".data.isPrefixOf text.data = true →
      findFrom "---".data text.data 3 = none →
      InstructionEntry.from_path safeLoad scope pathStr pathStem text
        = .error (.valueError "substring not found"))
    ∧ ("---".data.isPrefixOf text.data = false →
      InstructionEntry.from_path safeLoad scope pathStr pathStem text
        = .ok { stem := pathStem, scope := scope, file_path := pathStr,
                name := .str pathStem, description := .str "" }) := by
  constructor
  · intro h1 h2
    unfold InstructionEntry.from_path
    simp [h1, h2]
  · intro h1
    unfold InstructionEntry.from_path
    simp [h1, yamlTruthy, except_pure_eq_ok, except_ok_bind]

/-- C2 amended witness: the theorem applied to an unterminated header (a
failure) and to a header-free file (defaults, no failure). -/
theorem c2_amended_witness :
    InstructionEntry.from_path (fun _ => .ok .null) "guardrails" "/p"
      "x.instructions" "---\nunclosed"
      = .error (.valueError "substring not found")
    ∧ InstructionEntry.from_path (fun _ => .ok .null) "guardrails" "/p"
      "no-fm.instructions" "# No frontmatter\nJust content."
      = .ok { stem := "no-fm.instructions", scope := "guardrails",
              file_path := "/p", name := .str "no-fm.instructions",
              description := .str "" } :=
  ⟨(c2_amended (fun _ => .ok .null) "guardrails" "/p" "x.instructions"
      "---\nunclosed").1 (by decide) (by decide),
   (c2_amended (fun _ => .ok .null) "guardrails" "/p" "no-fm.instructions"
      "# No frontmatter\nJust content.").2 (by decide)⟩

-- ── C9: instruction body length ─────────────────────────────────────

/-- An instruction file with a well-formed header and a stripped body of
exactly 50 characters. -/
def instrText50 : String :=
  "---\nname: N\ndescription: D\n---\n" ++ String.mk (List.replicate 50 'x')

/-- The YAML oracle for the fixture's frontmatter. -/
def instrSafeLoad : String → Except String Yaml := fun s =>
  if s = "\nname: N\ndescription: D\n" then
    .ok (Yaml.map [("name", .str "N"), ("description", .str "D")])
  else .error "unexpected frontmatter"

/-- One guardrails instruction file holding the fixture. -/
def instrFiles50 : String → List (String × String) := fun s =>
  if s = "guardrails" then [("g.instructions.md", instrText50)] else []

/-- C9 counterexample: the fixture's body is exactly 50 characters after
stripping, yet `validate_instructions` raises no issue at all — in
particular no "too short" warning — refuting the claim that a body of
exactly 50 characters must receive the warning. -/
theorem c9_counterexample :
    (pyStrip (String.mk (instrText50.data.drop
      ((findFrom "---".data instrText50.data 3).getD 0 + 3)))).length = 50
    ∧ validate_instructions instrSafeLoad instrFiles50
      = { issues := [], files_checked := 1, files_passed := 1 } := by
  constructor
  · rfl
  · rfl

/-- The per-file step of `validate_instructions` only appends issues. -/
theorem validate_instructions_step_issues (safeLoad : String → Except String Yaml)
    (scope : String) (result : ValidationResult) (f : String × String) :
    ((fun (result : ValidationResult) (f : String × String) =>
      let rel_path := "instructions/" ++ scope ++ "/" ++ f.1
      let result := { result with files_checked := result.files_checked + 1 }
      let own := instrFileIssues safeLoad rel_path f.2
      let result := { result with issues := result.issues ++ own.1 }
      if own.2 ∧ ¬ result.issues.any
          (fun i => i.file == rel_path && i.severity == "error") then
        { result with files_passed := result.files_passed + 1 }
      else result) result f).issues
    = result.issues
      ++ (instrFileIssues safeLoad ("instructions/" ++ scope ++ "/" ++ f.1) f.2).1 := by
  simp only
  split <;> rfl

/-- The issues of `validate_instructions` are the concatenation of the
per-file issues, in scope and sorted-file order. -/
theorem validate_instructions_issues (safeLoad : String → Except String Yaml)
    (instrFiles : String → List (String × String)) :
    (validate_instructions safeLoad instrFiles).issues
      = INSTRUCTION_SCOPES.flatMap (fun scope =>
          (sortByName (instrFiles scope)).flatMap (fun f =>
            (instrFileIssues safeLoad
              ("instructions/" ++ scope ++ "/" ++ f.1) f.2).1)) := by
  have hfiles : ∀ (scope : String) (files : List (String × String))
      (r0 : ValidationResult),
      ((files.foldl (fun result f =>
        let rel_path := "instructions/" ++ scope ++ "/" ++ f.1
        let result := { result with files_checked := result.files_checked + 1 }
        let own := instrFileIssues safeLoad rel_path f.2
        let result := { result with issues := result.issues ++ own.1 }
        if own.2 ∧ ¬ result.issues.any
            (fun i => i.file == rel_path && i.severity == "error") then
          { result with files_passed := result.files_passed + 1 }
        else result) r0).issues)
      = r0.issues ++ files.flatMap (fun f =>
          (instrFileIssues safeLoad
            ("instructions/" ++ scope ++ "/" ++ f.1) f.2).1) := by
    intro scope files
    induction files with
    | nil => intro r0; simp
    | cons f fs ih =>
      intro r0
      rw [List.foldl_cons, ih]
      rw [validate_instructions_step_issues safeLoad scope r0 f]
      simp [List.flatMap_cons]
  have hscopes : ∀ (scopes : List String) (r0 : ValidationResult),
      ((scopes.foldl (fun result scope =>
        (sortByName (instrFiles scope)).foldl (fun result f =>
          let rel_path := "instructions/" ++ scope ++ "/" ++ f.1
          let result := { result with files_checked := result.files_checked + 1 }
          let own := instrFileIssues safeLoad rel_path f.2
          let result := { result with issues := result.issues ++ own.1 }
          if own.2 ∧ ¬ result.issues.any
              (fun i => i.file == rel_path && i.severity == "error") then
            { result with files_passed := result.files_passed + 1 }
          else result) result) r0).issues)
      = r0.issues ++ scopes.flatMap (fun scope =>
          (sortByName (instrFiles scope)).flatMap (fun f =>
            (instrFileIssues safeLoad
              ("instructions/" ++ scope ++ "/" ++ f.1) f.2).1)) := by
    intro scopes
    induction scopes with
    | nil => intro r0; simp
    | cons sc scs ih =>
      intro r0
      rw [List.foldl_cons, ih, hfiles]
      simp [List.flatMap_cons]
  have := hscopes INSTRUCTION_SCOPES
    { issues := [], files_checked := 0, files_passed := 0 }
  simpa [validate_instructions] using this

/-- C9 amended: for an instruction file with a valid header block, the
"too short" warning is raised exactly when the stripped body text after the
header has FEWER than 50 characters (a body of exactly 50 characters gets no
warning); together with the decomposition of `validate_instructions` into
per-file issues. -/
theorem c9_amended :
    (∀ (safeLoad : String → Except String Yaml) (rel_path text : String)
       (e : Nat) (kvs : List (String × Yaml)),
       "---".data.isPrefixOf text.data = true →
       findFrom "---".data text.data 3 = some e →
       safeLoad (String.mk ((text.data.drop 3).take (e - 3))) = .ok (Yaml.map kvs) →
       kvs ≠ [] →
       ((Issue.mk rel_path "Instruction body is too short (< 50 chars)" "warning")
           ∈ (instrFileIssues safeLoad rel_path text).1
         ↔ (pyStrip (String.mk (text.data.drop (e + 3)))).length < 50))
    ∧ ∀ (safeLoad : String → Except String Yaml)
        (instrFiles : String → List (String × String)),
        (validate_instructions safeLoad instrFiles).issues
          = INSTRUCTION_SCOPES.flatMap (fun scope =>
              (sortByName (instrFiles scope)).flatMap (fun f =>
                (instrFileIssues safeLoad
                  ("instructions/" ++ scope ++ "/" ++ f.1) f.2).1)) := by
  constructor
  · intro safeLoad rel_path text e kvs h1 h2 h3 h4
    have hm1 : ("Instruction body is too short (< 50 chars)" : String)
        ≠ "Frontmatter missing 'name' field" := by decide
    have hm2 : ("Instruction body is too short (< 50 chars)" : String)
        ≠ "Frontmatter missing 'description' field" := by decide
    by_cases hn : (yget? kvs "name").isNone <;>
      by_cases hdm : (yget? kvs "description").isNone <;>
      by_cases hb : (pyStrip (String.mk (text.data.drop (e + 3)))).length < 50 <;>
      simp [instrFileIssues, h1, h2, h3, h4, hn, hdm, hb, hm1, hm2,
        Issue.mk.injEq]
  · exact validate_instructions_issues

/-- C9 amended witness: a file whose stripped body has 49 characters gets
the warning; the 50-character fixture does not. -/
theorem c9_amended_witness :
    ("---".data.isPrefixOf instrText50.data = true
      ∧ findFrom "---".data instrText50.data 3 = some 27
      ∧ instrSafeLoad (String.mk ((instrText50.data.drop 3).take (27 - 3)))
          = .ok (Yaml.map [("name", .str "N"), ("description", .str "D")]))
    ∧ ¬ ((Issue.mk "instructions/guardrails/g.instructions.md"
          "Instruction body is too short (< 50 chars)" "warning")
        ∈ (instrFileIssues instrSafeLoad
            "instructions/guardrails/g.instructions.md" instrText50).1) := by
  refine ⟨⟨by decide, by decide, by decide⟩, ?_⟩
  have h := (c9_amended.1 instrSafeLoad
    "instructions/guardrails/g.instructions.md" instrText50 27
    [("name", .str "N"), ("description", .str "D")]
    (by decide) (by decide) (by decide) (by decide))
  intro hmem
  have := h.mp hmem
  revert this
  decide

-- ── C10: last-wins loading ──────────────────────────────────────────

theorem find?_overwrite_hit {β : Type} (k : String) (v : β) :
    ∀ d : List (String × β), d.any (fun kv => kv.1 == k) = true →
    (d.map (fun kv => if kv.1 == k then (k, v) else kv)).find?
        (fun kv => kv.1 == k)
      = some (k, v) := by
  intro d
  induction d with
  | nil => intro h; simp at h
  | cons kv d' ih =>
    intro ha
    simp only [List.map_cons]
    by_cases hh : (kv.1 == k) = true
    · rw [if_pos hh]
      simp only [List.find?_cons]
      have hself : ((k, v).1 == k) = true := by simp
      rw [hself]
    · rw [if_neg hh]
      have hh' : (kv.1 == k) = false := by simpa using hh
      simp only [List.find?_cons, hh']
      apply ih
      simp only [List.any_cons, Bool.or_eq_true] at ha
      rcases ha with ha | ha
      · exact absurd ha hh
      · exact ha

theorem find?_overwrite_other {β : Type} (k k' : String) (v : β)
    (hk : ¬ k' = k) :
    ∀ d : List (String × β),
    (d.map (fun kv => if kv.1 == k then (k, v) else kv)).find?
        (fun kv => kv.1 == k')
      = d.find? (fun kv => kv.1 == k') := by
  intro d
  induction d with
  | nil => rfl
  | cons kv d' ih =>
    simp only [List.map_cons]
    by_cases hh : (kv.1 == k) = true
    · rw [if_pos hh]
      have h1 : (((k, v).1 == k')) = false := by
        simpa using fun he => hk he.symm
      have h2 : ((kv.1 == k')) = false := by
        have he : kv.1 = k := by simpa using hh
        simpa [he] using fun he2 => hk he2.symm
      simp only [List.find?_cons, h1, h2, ih]
    · rw [if_neg hh]
      by_cases h4 : (kv.1 == k') = true
      · simp only [List.find?_cons, h4]
      · have h4' : ((kv.1 == k')) = false := by simpa using h4
        simp only [List.find?_cons, h4', ih]

theorem find?_none_of_any_false {β : Type} (k : String) :
    ∀ d : List (String × β), d.any (fun kv => kv.1 == k) = false →
    d.find? (fun kv => kv.1 == k) = none := by
  intro d
  induction d with
  | nil => intro _; rfl
  | cons kv d' ih =>
    intro ha
    simp only [List.any_cons, Bool.or_eq_false_iff] at ha
    simp only [List.find?_cons, ha.1, ih ha.2]

theorem dictGet_dictInsert {β : Type} (d : List (String × β)) (k k' : String)
    (v : β) :
    dictGet (dictInsert d k v) k' = if k' = k then some v else dictGet d k' := by
  unfold dictInsert dictGet
  by_cases ha : d.any (fun kv => kv.1 == k) = true
  · rw [if_pos ha]
    by_cases hk : k' = k
    · subst hk
      rw [if_pos rfl, find?_overwrite_hit k' v d ha]
      rfl
    · rw [if_neg hk, find?_overwrite_other k k' v hk d]
  · rw [if_neg ha]
    rw [List.find?_append]
    by_cases hk : k' = k
    · subst hk
      have ha' : d.any (fun kv => kv.1 == k') = false := by
        rw [← Bool.not_eq_true]
        exact ha
      rw [if_pos rfl, find?_none_of_any_false k' d ha']
      have hself : (((k', v).1 == k')) = true := by simp
      simp only [List.find?_cons, hself]
      rfl
    · rw [if_neg hk]
      have hone : List.find? (fun kv => kv.1 == k') [(k, v)] = none := by
        have hne : (((k, v).1 == k')) = false := by
          simpa using fun he => hk he.symm
        simp only [List.find?_cons, hne]
        rfl
      rw [hone]
      rcases hf : d.find? (fun kv => kv.1 == k') with _ | kv <;> simp [hf]

/-- Folding keyed insertions gives last-wins lookup: the result of looking
up `k` is the last entry in the insertion sequence whose key is `k`. -/
theorem foldl_dictInsert_lookup {β : Type} (κ : β → String) :
    ∀ (es : List β) (acc : List (String × β)) (k : String),
      dictGet (es.foldl (fun a e => dictInsert a (κ e) e) acc) k
        = match es.reverse.find? (fun e => κ e == k) with
          | some e => some e
          | none => dictGet acc k := by
  intro es
  induction es with
  | nil => intro acc k; rfl
  | cons e es' ih =>
    intro acc k
    rw [List.foldl_cons, ih]
    rw [List.reverse_cons, List.find?_append]
    rcases hf : es'.reverse.find? (fun e => κ e == k) with _ | e'
    · simp only [Option.none_or]
      by_cases hk : (κ e == k) = true
      · simp only [List.find?_cons, hk]
        rw [dictGet_dictInsert]
        rw [if_pos ((beq_iff_eq.mp hk).symm)]
      · have hk' : (κ e == k) = false := by simpa using hk
        simp only [List.find?_cons, hk']
        rw [dictGet_dictInsert]
        rw [if_neg (by simpa using fun he => hk (by simp [he]))]
        rfl
    · simp [hf]

theorem foldl_match_insert {α β : Type} (κ : β → String) (g : α → Option β)
    (step : List (String × β) → α → List (String × β))
    (hstep : ∀ acc f, step acc f
      = match g f with | some e => dictInsert acc (κ e) e | none => acc) :
    ∀ (files : List α) (acc : List (String × β)),
      files.foldl step acc
        = (files.filterMap g).foldl (fun a e => dictInsert a (κ e) e) acc := by
  intro files
  induction files with
  | nil => intro acc; rfl
  | cons f fs ih =>
    intro acc
    rw [List.foldl_cons, hstep]
    rcases hg : g f with _ | e
    · rw [List.filterMap_cons_none hg]
      exact ih acc
    · rw [List.filterMap_cons_some hg, List.foldl_cons]
      exact ih _

theorem foldl_dirs_insert {γ α β : Type} (κ : β → String)
    (dirsFiles : γ → List α) (g : γ → α → Option β)
    (step : γ → List (String × β) → α → List (String × β))
    (hstep : ∀ d acc f, step d acc f
      = match g d f with | some e => dictInsert acc (κ e) e | none => acc) :
    ∀ (dirs : List γ) (acc : List (String × β)),
      dirs.foldl (fun acc d => (dirsFiles d).foldl (step d) acc) acc
        = (dirs.flatMap (fun d => (dirsFiles d).filterMap (g d))).foldl
            (fun a e => dictInsert a (κ e) e) acc := by
  intro dirs
  induction dirs with
  | nil => intro acc; rfl
  | cons d ds ih =>
    intro acc
    rw [List.foldl_cons, List.flatMap_cons, List.foldl_append]
    rw [foldl_match_insert κ (g d) (step d) (hstep d) (dirsFiles d) acc]
    exact ih _

theorem dictInsert_map_fst {β : Type} (d : List (String × β)) (k : String)
    (v : β) :
    ∀ kv2 ∈ d.map (fun kv => if kv.1 == k then (k, v) else kv),
      ∃ kv ∈ d, kv2.1 = kv.1 := by
  intro kv2 h2
  rcases List.mem_map.mp h2 with ⟨kv, hkv, he⟩
  refine ⟨kv, hkv, ?_⟩
  rw [← he]
  by_cases hh : (kv.1 == k) = true
  · rw [if_pos hh]
    simpa using (beq_iff_eq.mp hh).symm
  · rw [if_neg hh]

theorem overwrite_map_fst {β : Type} (k : String) (v : β) :
    ∀ d : List (String × β),
      (d.map (fun kv => if kv.1 == k then (k, v) else kv)).map (fun kv => kv.1)
        = d.map (fun kv => kv.1) := by
  intro d
  induction d with
  | nil => rfl
  | cons kv d' ih =>
    simp only [List.map_cons]
    rw [ih]
    by_cases hh : (kv.1 == k) = true
    · rw [if_pos hh]
      simp [beq_iff_eq.mp hh]
    · rw [if_neg hh]

theorem dictInsert_keys_nodup {β : Type} (d : List (String × β)) (k : String)
    (v : β) (h : (d.map (fun kv => kv.1)).Nodup) :
    ((dictInsert d k v).map (fun kv => kv.1)).Nodup := by
  unfold dictInsert
  by_cases ha : d.any (fun kv => kv.1 == k) = true
  · rw [if_pos ha, overwrite_map_fst]
    exact h
  · rw [if_neg ha]
    rw [List.map_append]
    rw [List.nodup_append]
    refine ⟨h, by simp, ?_⟩
    intro x hx
    simp only [List.map_cons, List.map_nil, List.mem_singleton]
    intro he
    subst he
    rcases List.mem_map.mp hx with ⟨kv, hkv, hke⟩
    exact ha (List.any_eq_true.mpr ⟨kv, hkv, by simp [hke]⟩)

theorem foldl_dictInsert_keys_nodup {β : Type} (κ : β → String) :
    ∀ (es : List β) (acc : List (String × β)),
      ((acc.map (fun kv => kv.1)).Nodup) →
      (((es.foldl (fun a e => dictInsert a (κ e) e) acc).map
        (fun kv => kv.1)).Nodup) := by
  intro es
  induction es with
  | nil => intro acc h; exact h
  | cons e es' ih =>
    intro acc h
    rw [List.foldl_cons]
    exact ih _ (dictInsert_keys_nodup acc (κ e) e h)

/-- The prompt files in scan order (directory order, sorted names,
`_`-prefixed names skipped) that construct successfully. -/
def promptScan (root : String)
    (promptFiles : String → List (String × Except String Yaml)) :
    List PromptEntry :=
  PROMPT_DIRS.flatMap (fun dir =>
    (sortByName (promptFiles dir)).filterMap (fun f =>
      if f.1.startsWith "_" then none
      else (PromptEntry.from_yaml
        (root ++ "/prompts/" ++ dir ++ "/" ++ f.1) f.2).toOption))

/-- The instruction files in scan order that construct successfully. -/
def instrScan (root : String) (safeLoad : String → Except String Yaml)
    (instrFiles : String → List (String × String)) : List InstructionEntry :=
  INSTRUCTION_SCOPES.flatMap (fun scope =>
    (sortByName (instrFiles scope)).filterMap (fun f =>
      (InstructionEntry.from_path safeLoad scope
        (root ++ "/instructions/" ++ scope ++ "/" ++ f.1)
        (fileStem f.1) f.2).toOption))

/-- The starter-kit files in sorted order that construct successfully. -/
def kitScan (kitFiles : List (String × Except String Yaml)) :
    List StarterKit :=
  (sortByName kitFiles).filterMap (fun f => (StarterKit.from_yaml f.2).toOption)

/-- C10: loading is a silent last-wins overwrite. Looking any identifier up
in the loaded catalog returns the LAST successfully parsed file in the fixed
directory/sorted-filename scan order that declares it (so exactly one entry
per identifier survives — the key lists are duplicate-free), and the same
holds for instruction stems and starter-kit identifiers. `Catalog.load`
returns only the catalog itself, so no error or warning channel even exists
for the collision. -/
theorem c10_load_last_wins (root : String)
    (safeLoad : String → Except String Yaml)
    (promptFiles : String → List (String × Except String Yaml))
    (instrFiles : String → List (String × String))
    (kitFiles : List (String × Except String Yaml))
    (pid stem kid : String) :
    (dictGet (Catalog.load root safeLoad promptFiles instrFiles kitFiles).prompts pid
      = (promptScan root promptFiles).reverse.find? (fun e => e.id == pid))
    ∧ (((Catalog.load root safeLoad promptFiles instrFiles kitFiles).prompts.map
        (fun kv => kv.1)).Nodup)
    ∧ (dictGet (Catalog.load root safeLoad promptFiles instrFiles kitFiles).instructions stem
      = (instrScan root safeLoad instrFiles).reverse.find? (fun e => e.stem == stem))
    ∧ (((Catalog.load root safeLoad promptFiles instrFiles kitFiles).instructions.map
        (fun kv => kv.1)).Nodup)
    ∧ (dictGet (Catalog.load root safeLoad promptFiles instrFiles kitFiles).starter_kits kid
      = (kitScan kitFiles).reverse.find? (fun kt => kt.id == kid))
    ∧ (((Catalog.load root safeLoad promptFiles instrFiles kitFiles).starter_kits.map
        (fun kv => kv.1)).Nodup) := by
  have hp : (Catalog.load root safeLoad promptFiles instrFiles kitFiles).prompts
      = (promptScan root promptFiles).foldl
          (fun a e => dictInsert a e.id e) [] := by
    unfold Catalog.load promptScan
    simp only
    rw [foldl_dirs_insert (fun (e : PromptEntry) => e.id)
      (fun dir => sortByName (promptFiles dir))
      (fun dir f => if f.1.startsWith "_" then none
        else (PromptEntry.from_yaml
          (root ++ "/prompts/" ++ dir ++ "/" ++ f.1) f.2).toOption)
      _ ?_]
    intro d acc f
    by_cases hs : f.1.startsWith "_" = true
    · simp [hs]
    · rcases hf : PromptEntry.from_yaml
          (root ++ "/prompts/" ++ d ++ "/" ++ f.1) f.2 with e | e <;>
        simp [hs, hf, Except.toOption]
  have hi : (Catalog.load root safeLoad promptFiles instrFiles kitFiles).instructions
      = (instrScan root safeLoad instrFiles).foldl
          (fun a e => dictInsert a e.stem e) [] := by
    unfold Catalog.load instrScan
    simp only
    rw [foldl_dirs_insert (fun (e : InstructionEntry) => e.stem)
      (fun scope => sortByName (instrFiles scope))
      (fun scope f => (InstructionEntry.from_path safeLoad scope
        (root ++ "/instructions/" ++ scope ++ "/" ++ f.1)
        (fileStem f.1) f.2).toOption)
      _ ?_]
    intro d acc f
    rcases hf : InstructionEntry.from_path safeLoad d
        (root ++ "/instructions/" ++ d ++ "/" ++ f.1)
        (fileStem f.1) f.2 with e | e <;> simp [hf, Except.toOption]
  have hk : (Catalog.load root safeLoad promptFiles instrFiles kitFiles).starter_kits
      = (kitScan kitFiles).foldl (fun a e => dictInsert a e.id e) [] := by
    unfold Catalog.load kitScan
    simp only
    rw [foldl_match_insert (fun (kt : StarterKit) => kt.id)
      (fun f => (StarterKit.from_yaml f.2).toOption) _ ?_]
    intro acc f
    rcases hf : StarterKit.from_yaml f.2 with e | e <;> simp [hf, Except.toOption]
  refine ⟨?_, ?_, ?_, ?_, ?_, ?_⟩
  · rw [hp, foldl_dictInsert_lookup]
    rcases hf : (promptScan root promptFiles).reverse.find?
        (fun e => e.id == pid) with _ | e <;> rw [hf] <;> rfl
  · rw [hp]
    exact foldl_dictInsert_keys_nodup _ _ [] (by simp)
  · rw [hi, foldl_dictInsert_lookup]
    rcases hf : (instrScan root safeLoad instrFiles).reverse.find?
        (fun e => e.stem == stem) with _ | e <;> rw [hf] <;> rfl
  · rw [hi]
    exact foldl_dictInsert_keys_nodup _ _ [] (by simp)
  · rw [hk, foldl_dictInsert_lookup]
    rcases hf : (kitScan kitFiles).reverse.find?
        (fun kt => kt.id == kid) with _ | e <;> rw [hf] <;> rfl
  · rw [hk]
    exact foldl_dictInsert_keys_nodup _ _ [] (by simp)

-- ── C1: validator exception safety ──────────────────────────────────

/-- The shape under which `_check_prompt_extras` cannot raise: the `prompt`
field (after defaulting) is a string, every `variables` entry is a mapping
whose `name` key holds a string, and `related_prompts` is a list. -/
def ExtrasSafe (kvs : List (String × Yaml)) : Prop :=
  (∃ s, yget kvs "prompt" (.str "") = .str s)
  ∧ (∃ vs, yget kvs "variables" (.list []) = .list vs
      ∧ ∀ v ∈ vs, ∃ kvsv, v = Yaml.map kvsv
          ∧ ∃ s, ygetItem kvsv "name" = .ok (Yaml.str s))
  ∧ (∃ xs, yget kvs "related_prompts" (.list []) = .list xs)

/-- A prompt file whose parsed mapping (if any) is extras-safe. -/
def SafeFile (f : String × Except String Yaml) : Prop :=
  ∀ y, f.2 = .ok y → ∀ kvs, y = .map kvs → ExtrasSafe kvs

theorem mapM_except_ok {α β : Type} (f : α → Except PyError β) (P : β → Prop) :
    ∀ l : List α, (∀ x ∈ l, ∃ y, f x = .ok y ∧ P y) →
    ∃ ys, l.mapM f = .ok ys ∧ ∀ y ∈ ys, P y := by
  intro l
  induction l with
  | nil =>
    intro _
    exact ⟨[], rfl, by intro y hy; simp at hy⟩
  | cons a l' ih =>
    intro h
    rcases h a (by simp) with ⟨y, hy, hPy⟩
    rcases ih (fun x hx => h x (by simp [hx])) with ⟨ys, hys, hPys⟩
    refine ⟨y :: ys, ?_, ?_⟩
    · rw [List.mapM_cons, hy]
      rw [except_ok_bind, hys, except_ok_bind]
      rfl
    · intro z hz
      rcases List.mem_cons.mp hz with hz | hz
      · rw [hz]; exact hPy
      · exact hPys z hz

theorem pySortedJoin_ok (xs : List Yaml) (h : ∀ y ∈ xs, ∃ s, y = .str s) :
    ∃ out, pySortedJoin xs = .ok out := by
  have := mapM_except_ok
    (fun y => match y with
      | Yaml.str s => Except.ok s
      | _ => Except.error (PyError.typeError "expected str instance"))
    (fun _ => True) xs
    (fun y hy => by
      rcases h y hy with ⟨s, hs⟩
      exact ⟨s, by rw [hs], trivial⟩)
  rcases this with ⟨ys, hys, _⟩
  refine ⟨String.intercalate ", " (sortStrings ys), ?_⟩
  unfold pySortedJoin
  rw [hys, except_ok_bind]
  rfl

theorem check_prompt_extras_ok (kvs : List (String × Yaml)) (rel_path : String)
    (h : ExtrasSafe kvs) :
    ∃ issues, _check_prompt_extras kvs rel_path = .ok issues := by
  rcases h with ⟨⟨s, hps⟩, ⟨vs, hvs, hvnames⟩, ⟨xs, hrel⟩⟩
  unfold _check_prompt_extras
  rw [hps, hvs, hrel]
  simp only [except_pure_eq_ok, except_ok_bind, pyIter]
  have hdef := mapM_except_ok pySubscriptName (fun y => ∃ t, y = Yaml.str t) vs
    (fun v hv => by
      rcases hvnames v hv with ⟨kvsv, hkv, t, ht⟩
      exact ⟨Yaml.str t, by rw [hkv]; exact ht, t, rfl⟩)
  rcases hdef with ⟨defined, hdefeq, hdefP⟩
  rw [hdefeq]
  simp only [except_ok_bind]
  have hused : ∀ y ∈ (dedupFirst (findPlaceholders s.data)).map Yaml.str,
      ∃ t, y = Yaml.str t := by
    intro y hy
    rcases List.mem_map.mp hy with ⟨t, _, ht⟩
    exact ⟨t, ht.symm⟩
  have hundef := pySortedJoin_ok
    (((dedupFirst (findPlaceholders s.data)).map Yaml.str).filter
      (fun u => ¬ (dedupFirst defined).contains u))
    (fun y hy => hused y (List.mem_of_mem_filter hy))
  have hunused := pySortedJoin_ok
    ((dedupFirst defined).filter
      (fun d => ¬ ((dedupFirst (findPlaceholders s.data)).map Yaml.str).contains d))
    (fun y hy => by
      have hyd := List.mem_of_mem_filter hy
      exact hdefP y ((mem_dedupFirst y defined).mp hyd))
  rcases hundef with ⟨j1, hj1⟩
  rcases hunused with ⟨j2, hj2⟩
  simp only [hj1, hj2, except_ok_bind, except_pure_eq_ok]
  by_cases h1 : (((dedupFirst (findPlaceholders s.data)).map Yaml.str).filter
      (fun u => ¬ (dedupFirst defined).contains u)) ≠ [] <;>
    by_cases h2 : ((dedupFirst defined).filter
      (fun d => ¬ ((dedupFirst (findPlaceholders s.data)).map Yaml.str).contains d)) ≠ []
  · rw [if_pos h1, if_pos h2]
    exact ⟨_, rfl⟩
  · rw [if_pos h1, if_neg h2]
    exact ⟨_, rfl⟩
  · rw [if_neg h1, if_pos h2]
    exact ⟨_, rfl⟩
  · rw [if_neg h1, if_neg h2]
    exact ⟨_, rfl⟩

/-- The Issue records the per-file loop of `validate_prompts` appends for
one file before the extras checks (the branch strings of the source loop):
the parse-error Issue when the YAML failed to load, one error Issue per
schema violation when the document is a mapping, and the non-mapping Issue
otherwise. -/
def requiredIssues (iterErrors : Yaml → List SchemaViol) (dir : String)
    (f : String × Except String Yaml) : List Issue :=
  let rel_path := "prompts/" ++ dir ++ "/" ++ f.1
  match f.2 with
  | .error e => [⟨rel_path, "YAML parse error: " ++ e, "error"⟩]
  | .ok data =>
    match data with
    | .map _ => (iterErrors data).map (fun v =>
        ⟨rel_path,
         (let j := String.intercalate "." v.path;
          if j = "" then "(root)" else j) ++ ": " ++ v.message,
         "error"⟩)
    | _ => [⟨rel_path, "File does not contain a YAML mapping", "error"⟩]

theorem validatePromptFile_issues (iterErrors : Yaml → List SchemaViol)
    (dir : String) (result : ValidationResult)
    (f : String × Except String Yaml) (hf : SafeFile f) :
    ∃ r, validatePromptFile iterErrors dir result f = .ok r
      ∧ (∃ tail, r.issues = result.issues ++ tail)
      ∧ ∀ i ∈ requiredIssues iterErrors dir f, i ∈ r.issues := by
  unfold validatePromptFile requiredIssues
  rcases hfe : f.2 with e | data
  · refine ⟨_, rfl, ⟨_, rfl⟩, ?_⟩
    intro i hi
    simp only [List.mem_singleton] at hi
    subst hi
    simp
  · have hsafe := hf data hfe
    cases data with
    | map kvs =>
      rcases check_prompt_extras_ok kvs ("prompts/" ++ dir ++ "/" ++ f.1)
        (hsafe kvs rfl) with ⟨extra, hex⟩
      simp only [except_pure_eq_ok, except_ok_bind, hex]
      by_cases hv : iterErrors (Yaml.map kvs) ≠ []
      · rw [if_pos hv]
        refine ⟨_, rfl, ⟨_, List.append_assoc _ _ _⟩, ?_⟩
        intro i hi
        simp only [List.mem_append]
        exact Or.inl (Or.inr hi)
      · rw [if_neg hv]
        refine ⟨_, rfl, ⟨extra, rfl⟩, ?_⟩
        intro i hi
        rw [not_not.mp hv] at hi
        cases hi
    | null =>
      refine ⟨_, rfl, ⟨_, rfl⟩, ?_⟩
      intro i hi
      simp only [List.mem_singleton] at hi
      subst hi
      simp
    | bool b =>
      refine ⟨_, rfl, ⟨_, rfl⟩, ?_⟩
      intro i hi
      simp only [List.mem_singleton] at hi
      subst hi
      simp
    | int n =>
      refine ⟨_, rfl, ⟨_, rfl⟩, ?_⟩
      intro i hi
      simp only [List.mem_singleton] at hi
      subst hi
      simp
    | str t =>
      refine ⟨_, rfl, ⟨_, rfl⟩, ?_⟩
      intro i hi
      simp only [List.mem_singleton] at hi
      subst hi
      simp
    | list xs =>
      refine ⟨_, rfl, ⟨_, rfl⟩, ?_⟩
      intro i hi
      simp only [List.mem_singleton] at hi
      subst hi
      simp

theorem foldlM_validatePromptFile_issues (iterErrors : Yaml → List SchemaViol)
    (dir : String) :
    ∀ (files : List (String × Except String Yaml)) (result : ValidationResult),
    (∀ f ∈ files, SafeFile f) →
    ∃ r, files.foldlM (validatePromptFile iterErrors dir) result = .ok r
      ∧ (∃ tail, r.issues = result.issues ++ tail)
      ∧ ∀ f ∈ files, ∀ i ∈ requiredIssues iterErrors dir f, i ∈ r.issues := by
  intro files
  induction files with
  | nil =>
    intro result _
    refine ⟨result, rfl, ⟨[], (List.append_nil _).symm⟩, ?_⟩
    intro f hf
    exact absurd hf (List.not_mem_nil f)
  | cons f fs ih =>
    intro result h
    rcases validatePromptFile_issues iterErrors dir result f (h f (by simp))
      with ⟨r1, hr1, ⟨t1, ht1⟩, hreq1⟩
    rcases ih r1 (fun g hg => h g (by simp [hg])) with ⟨r, hr, ⟨t2, ht2⟩, hrest⟩
    refine ⟨r, ?_, ⟨t1 ++ t2, ?_⟩, ?_⟩
    · rw [List.foldlM_cons, hr1, except_ok_bind, hr]
    · rw [ht2, ht1, List.append_assoc]
    · intro g hg i hi
      rcases List.mem_cons.mp hg with hg | hg
      · subst hg
        rw [ht2]
        exact List.mem_append_left _ (hreq1 i hi)
      · exact hrest g hg i hi

theorem foldlM_promptDirs_issues (iterErrors : Yaml → List SchemaViol)
    (promptFiles : String → List (String × Except String Yaml)) :
    ∀ (dirs : List String) (result : ValidationResult),
    (∀ dir, ∀ f ∈ promptFiles dir, SafeFile f) →
    ∃ r, dirs.foldlM
      (fun result dir =>
        (sortByName (promptFiles dir)).foldlM (validatePromptFile iterErrors dir)
          result)
      result = .ok r
      ∧ (∃ tail, r.issues = result.issues ++ tail)
      ∧ ∀ dir ∈ dirs, ∀ f ∈ promptFiles dir,
          ∀ i ∈ requiredIssues iterErrors dir f, i ∈ r.issues := by
  intro dirs
  induction dirs with
  | nil =>
    intro result _
    refine ⟨result, rfl, ⟨[], (List.append_nil _).symm⟩, ?_⟩
    intro d hd
    exact absurd hd (List.not_mem_nil d)
  | cons d ds ih =>
    intro result h
    rcases foldlM_validatePromptFile_issues iterErrors d
        (sortByName (promptFiles d)) result
        (fun f hf => h d f ((mem_sortByName f (promptFiles d)).mp hf))
      with ⟨r1, hr1, ⟨t1, ht1⟩, hreq1⟩
    rcases ih r1 h with ⟨r, hr, ⟨t2, ht2⟩, hrest⟩
    refine ⟨r, ?_, ⟨t1 ++ t2, ?_⟩, ?_⟩
    · rw [List.foldlM_cons, hr1, except_ok_bind, hr]
    · rw [ht2, ht1, List.append_assoc]
    · intro d2 hd2 f hf i hi
      rcases List.mem_cons.mp hd2 with hd2 | hd2
      · subst hd2
        rw [ht2]
        exact List.mem_append_left _
          (hreq1 f ((mem_sortByName f (promptFiles d2)).mpr hf) i hi)
      · exact hrest d2 hd2 f hf i hi

/-- A fixture with one prompt file whose `prompt` field is the integer 1,
which `re.findall` rejects with a TypeError. -/
def badPromptFiles : String → List (String × Except String Yaml) :=
  fun dir => if dir = "planning" then
    [("bad.yaml", Except.ok (Yaml.map [("prompt", Yaml.int 1)]))]
  else []

/-- C1: refuted as stated. A prompt file whose `prompt` field is not a
string makes `_check_prompt_extras` pass a non-string to `re.findall`,
whose TypeError is raised past `validate_prompts` rather than being
captured as an Issue: on such a catalog the function returns an exception,
not a ValidationResult. -/
theorem c1_counterexample :
    validate_prompts (some (Yaml.map [("type", Yaml.str "object")]))
      (fun _ => []) badPromptFiles
      = .error (PyError.typeError "expected string or bytes-like object") := by
  rfl

/-- A fixture mixing a file that fails YAML parsing (captured as an Issue)
with a well-shaped one. -/
def mixedPromptFiles : String → List (String × Except String Yaml) :=
  fun dir => if dir = "planning" then
    [("bad.yaml", Except.error "mapping values are not allowed here"),
     ("good.yaml", Except.ok (Yaml.map [("prompt", Yaml.str "hello")]))]
  else []

/-- C1 (amended): `validate_prompts` returns a ValidationResult (raising no
exception) whenever every successfully parsed mapping is extras-safe: its
`prompt` field (after defaulting) is a string, each `variables` entry is a
mapping with a string `name`, and `related_prompts` is a list. Under this
proviso, when the schema loads, every parse failure, every schema
violation and every non-mapping document is captured as its Issue record
in the returned result; outside the proviso `_check_prompt_extras` raises
TypeError or KeyError past the boundary (see the counterexample). -/
theorem c1_amended (schema : Option Yaml) (iterErrors : Yaml → List SchemaViol)
    (promptFiles : String → List (String × Except String Yaml))
    (h : ∀ dir, ∀ f ∈ promptFiles dir, SafeFile f) :
    ∃ r, validate_prompts schema iterErrors promptFiles = .ok r
      ∧ ((match schema with | none => false | some s => yamlTruthy s) = true →
          ∀ dir ∈ PROMPT_DIRS, ∀ f ∈ promptFiles dir,
          ∀ i ∈ requiredIssues iterErrors dir f, i ∈ r.issues) := by
  unfold validate_prompts
  by_cases hs :
      (match schema with | none => false | some s => yamlTruthy s) = false
  · rw [if_pos hs]
    refine ⟨_, rfl, ?_⟩
    intro ht
    exact absurd (hs.symm.trans ht) (by decide)
  · rw [if_neg hs]
    rcases foldlM_promptDirs_issues iterErrors promptFiles PROMPT_DIRS
      { issues := [], files_checked := 0, files_passed := 0 } h
      with ⟨r, hr, _, hmem⟩
    exact ⟨r, hr, fun _ => hmem⟩

/-- C1 witness: the amended theorem applied to the mixed fixture; the
parse-error file is vacuously safe, the good file is extras-safe, and the
parse-error Issue is reported in the result. -/
theorem c1_amended_witness :
    ∃ r, validate_prompts (some (Yaml.map [("type", Yaml.str "object")]))
      (fun _ => []) mixedPromptFiles = .ok r
      ∧ ((match some (Yaml.map [("type", Yaml.str "object")]) with
            | none => false | some s => yamlTruthy s) = true →
          ∀ dir ∈ PROMPT_DIRS, ∀ f ∈ mixedPromptFiles dir,
          ∀ i ∈ requiredIssues (fun _ => []) dir f, i ∈ r.issues) :=
  c1_amended (some (Yaml.map [("type", Yaml.str "object")])) (fun _ => [])
    mixedPromptFiles
    (by
      intro dir f hf
      unfold mixedPromptFiles at hf
      by_cases hd : dir = "planning"
      · rw [if_pos hd] at hf
        simp only [List.mem_cons, List.not_mem_nil, or_false] at hf
        rcases hf with hf | hf
        · rw [hf]
          intro y hy
          exact absurd hy (by simp)
        · rw [hf]
          intro y hy kvs hk
          injection hy with hy
          subst hy
          injection hk with hk
          subst hk
          refine ⟨⟨"hello", rfl⟩, ⟨[], rfl, ?_⟩, ⟨[], rfl⟩⟩
          intro v hv
          cases hv
      · rw [if_neg hd] at hf
        cases hf)

-- ── C8: index count mismatch ────────────────────────────────────────

end PromptCatalog
